import Mathlib

/-!
Verification development for the Accessibility Linting & Rewrite Engine of
the InAA demo application (src/app.py, "Run Accessibility Linter" block).

The engine is embedded shallowly over `List Char`:
  * each rule's regular-expression pattern (Python `re`, ASCII fragment of
    its semantics: `re.I` as ASCII lower-casing, `\d` as ASCII digits,
    `\s` as the six ASCII whitespace characters, `\w` as ASCII
    alphanumerics plus underscore) is embedded as an executable
    match-at-position function with Python's leftmost-first backtracking
    discipline (greedy `?`, ordered alternation);
  * `re.finditer` and `re.sub` are embedded as a generic fuel-based
    left-to-right non-overlapping scan (`finditer`, `reSub`);
  * the button handler's flag loop, the three-step `re.sub` chain, and the
    empty-text guard become `lintFlags`, `lintClean` and `lint`.
-/

namespace InAA

/-- ASCII lower-casing, embedding the effect of `re.I` on the ASCII
patterns used by the rules. -/
def lc (c : Char) : Char := c.toLower

/-- Python `\w` on ASCII: letters, digits and underscore. -/
def isWordChar (c : Char) : Bool := c.isAlphanum || c = '_'

/-- Python `\s` on ASCII: the six whitespace characters. -/
def isPySpace (c : Char) : Bool :=
  c = ' ' || c = '\t' || c = '\n' || c = '\r' || c = '\x0b' || c = '\x0c'

/-- Word-character test for an optional context character (out of string
counts as non-word, as in `re` word boundaries). -/
def wordOpt : Option Char → Bool
  | none => false
  | some c => isWordChar c

/-- Word-character test for the head of the remaining text (end of string
counts as non-word, as in `re` word boundaries). -/
def wordHead : List Char → Bool
  | [] => false
  | c :: _ => isWordChar c

/-- Coerce a string literal to the character-list representation used by
the embedding. -/
def str (s : String) : List Char := s.data

/-- Case-insensitive literal matching at the head of the text: on success
returns the matched span (original characters) and the remainder. -/
def ciSplit : List Char → List Char → Option (List Char × List Char)
  | [], s => some ([], s)
  | _ :: _, [] => none
  | p :: ps, c :: cs =>
    if lc c = lc p then
      match ciSplit ps cs with
      | some (m, r) => some (c :: m, r)
      | none => none
    else none

/-- Last character of a matched span, falling back to the previous context
character when the span is empty. -/
def lastOr (m : List Char) (prev : Option Char) : Option Char :=
  match m.getLast? with
  | some c => some c
  | none => prev

/-- Captured groups of a match, in order, `none` for an unmatched optional
group (Python `m.groups()`). -/
abbrev Groups := List (Option (List Char))

/-- A match-at-position function: given the previous character (for word
boundaries) and the remaining text, return the matched span, the captured
groups and the remaining text after the match. -/
abbrev Matcher := Option Char → List Char → Option (List Char × Groups × List Char)

/-- Rule R-A1, pattern `\bclimb(ing)?\b` with `re.I`
(src/app.py line 218): word boundary, literal `climb`, greedy optional
group `(ing)`, word boundary, with Python's backtracking order. -/
def matchA1At (prev : Option Char) (s : List Char) :
    Option (List Char × Groups × List Char) :=
  if wordOpt prev then none
  else
    match ciSplit (str "climb") s with
    | none => none
    | some (m1, r1) =>
      match ciSplit (str "ing") r1 with
      | some (m2, r2) =>
        if wordHead r2 then
          if wordHead r1 then none else some (m1, [none], r1)
        else some (m1 ++ m2, [some m2], r2)
      | none => if wordHead r1 then none else some (m1, [none], r1)

/-- The unit alternation `(lb|lbs|pounds|kg)` of rule R-A2
(src/app.py line 221), in Python's first-alternative-wins order. -/
def matchUnitAt (s : List Char) : Option (List Char × List Char) :=
  match ciSplit (str "lb") s with
  | some mr => some mr
  | none =>
    match ciSplit (str "lbs") s with
    | some mr => some mr
    | none =>
      match ciSplit (str "pounds") s with
      | some mr => some mr
      | none => ciSplit (str "kg") s

/-- The suffix `\s*(\d+)\s*(lb|lbs|pounds|kg)?` of rule R-A2's pattern,
applied after `lift(?:ing)?` has consumed `pref`: greedy whitespace, at
least one digit (group 1), greedy whitespace, optional unit (group 2). -/
def a2Tail (pref rest : List Char) :
    Option (List Char × Groups × List Char) :=
  let sp1 := rest.takeWhile isPySpace
  let r1 := rest.dropWhile isPySpace
  let ds := r1.takeWhile Char.isDigit
  let r2 := r1.dropWhile Char.isDigit
  if ds = [] then none
  else
    let sp2 := r2.takeWhile isPySpace
    let r3 := r2.dropWhile isPySpace
    match matchUnitAt r3 with
    | some (u, r4) => some (pref ++ sp1 ++ ds ++ sp2 ++ u, [some ds, some u], r4)
    | none => some (pref ++ sp1 ++ ds ++ sp2, [some ds, none], r3)

/-- Rule R-A2, pattern `lift(?:ing)?\s*(\d+)\s*(lb|lbs|pounds|kg)?` with
`re.I` (src/app.py line 221): greedy optional `(?:ing)` tried first, with
backtracking to the bare `lift` when the tail fails. -/
def matchA2At (_prev : Option Char) (s : List Char) :
    Option (List Char × Groups × List Char) :=
  match ciSplit (str "lift") s with
  | none => none
  | some (m0, r0) =>
    match ciSplit (str "ing") r0 with
    | some (mi, ri) =>
      match a2Tail (m0 ++ mi) ri with
      | some res => some res
      | none => a2Tail m0 r0
    | none => a2Tail m0 r0

/-- The two hyphen-or-space phrases of rule R-B3's alternation,
`self[- ]starter` and `detail[- ]oriented`. -/
def ciSplitDash (p1 p2 : List Char) (s : List Char) :
    Option (List Char × List Char) :=
  match ciSplit p1 s with
  | none => none
  | some (m1, r1) =>
    match r1 with
    | [] => none
    | c :: r2 =>
      if c = '-' || c = ' ' then
        match ciSplit p2 r2 with
        | none => none
        | some (m2, r3) => some (m1 ++ c :: m2, r3)
      else none

/-- The alternation of rule R-B3 (src/app.py line 224), in Python's
first-alternative-wins order. -/
def b3Alt (s : List Char) : Option (List Char × List Char) :=
  match ciSplit (str "excellent communication") s with
  | some mr => some mr
  | none =>
    match ciSplit (str "team player") s with
    | some mr => some mr
    | none =>
      match ciSplitDash (str "self") (str "starter") s with
      | some mr => some mr
      | none =>
        match ciSplit (str "strong work ethic") s with
        | some mr => some mr
        | none => ciSplitDash (str "detail") (str "oriented") s

/-- Rule R-B3, pattern
`(excellent communication|team player|self[- ]starter|strong work ethic|detail[- ]oriented)`
with `re.I` (src/app.py line 224); the whole pattern is group 1. -/
def matchB3At (_prev : Option Char) (s : List Char) :
    Option (List Char × Groups × List Char) :=
  match b3Alt s with
  | some (m, r) => some (m, [some m], r)
  | none => none

/-- The literal phrase of rule R-D1 (src/app.py line 226). -/
def D1phrase : List Char := str "with or without reasonable accommodation"

/-- Rule R-D1, pattern `with or without reasonable accommodation` with
`re.I` (src/app.py line 226); no groups. -/
def matchD1At (_prev : Option Char) (s : List Char) :
    Option (List Char × Groups × List Char) :=
  match ciSplit D1phrase s with
  | some (m, r) => some (m, [], r)
  | none => none

/-- Fuel-based left-to-right non-overlapping scan, embedding
`re.finditer` (none of the rules' patterns can match the empty string, so
fuel equal to the text length always suffices). Records the start
position, matched span and groups of each match. -/
def finditerAux (M : Matcher) :
    Nat → Nat → Option Char → List Char → List (Nat × List Char × Groups)
  | 0, _, _, _ => []
  | _ + 1, _, _, [] => []
  | fuel + 1, pos, prev, c :: cs =>
    match M prev (c :: cs) with
    | some (g0, gs, rest) =>
      (pos, g0, gs) :: finditerAux M fuel (pos + g0.length) (lastOr g0 prev) rest
    | none => finditerAux M fuel (pos + 1) (some c) cs

/-- Embedding of `re.finditer(pattern, s, flags)` for a rule's pattern. -/
def finditer (M : Matcher) (s : List Char) : List (Nat × List Char × Groups) :=
  finditerAux M s.length 0 none s

/-- Fuel-based rewriting scan, embedding `re.sub`: each non-overlapping
match is replaced by `repl` applied to its span and groups, unmatched
characters are kept. -/
def subAux (M : Matcher) (repl : List Char → Groups → List Char) :
    Nat → Option Char → List Char → List Char
  | 0, _, s => s
  | _ + 1, _, [] => []
  | fuel + 1, prev, c :: cs =>
    match M prev (c :: cs) with
    | some (g0, gs, rest) => repl g0 gs ++ subAux M repl fuel (lastOr g0 prev) rest
    | none => c :: subAux M repl fuel (some c) cs

/-- Embedding of `re.sub(pattern, repl, s, flags)` for a rule's pattern. -/
def reSub (M : Matcher) (repl : List Char → Groups → List Char) (s : List Char) :
    List Char :=
  subAux M repl s.length none s

/-- A flag record, mirroring the dict built in the flags loop
(src/app.py lines 235-238): keys `rule_id`, `severity`, `match`,
`message`, `suggestion` in that order (`match` is rendered `matchStr`
because `match` is a Lean keyword). -/
structure Flag where
  rule_id : List Char
  severity : List Char
  matchStr : List Char
  message : List Char
  suggestion : List Char
deriving DecidableEq, Repr

/-- The dict view of a flag: the exact key/value pairs, in insertion
order, of the dict literal at src/app.py lines 235-238. -/
def flagToDict (f : Flag) : List (List Char × List Char) :=
  [(str "rule_id", f.rule_id), (str "severity", f.severity),
   (str "match", f.matchStr), (str "message", f.message),
   (str "suggestion", f.suggestion)]

/-- A rule of the inline `RULES` list (src/app.py lines 217-228): static
fields plus the embedded pattern. All four rules carry flag string "i"
(case-insensitive), embedded inside each matcher. -/
structure Rule where
  id : List Char
  severity : List Char
  message : List Char
  suggestion : List Char
  pat : Matcher

/-- Rule R-A1 of the inline `RULES` list (src/app.py lines 218-220). -/
def ruleA1 : Rule :=
  ⟨str "R-A1", str "warn",
   str "Replace physical-method verb with task-focused wording.",
   str "Use \x27ascend a ladder\x27 or \x27access elevated work areas\x27.",
   matchA1At⟩

/-- Rule R-A2 of the inline `RULES` list (src/app.py lines 221-223). -/
def ruleA2 : Rule :=
  ⟨str "R-A2", str "warn",
   str "Hard physical requirement may exclude qualified candidates if not essential.",
   str "State the task and allow assistive devices/team lifts.",
   matchA2At⟩

/-- Rule R-B3 of the inline `RULES` list (src/app.py lines 224-225). -/
def ruleB3 : Rule :=
  ⟨str "R-B3", str "info",
   str "Vague soft-skill language.",
   str "Define observable behaviors.",
   matchB3At⟩

/-- Rule R-D1 of the inline `RULES` list (src/app.py lines 226-227). -/
def ruleD1 : Rule :=
  ⟨str "R-D1", str "info",
   str "ADA boilerplate belongs in HR, not WPS.",
   str "Remove from WPS; keep in policy docs.",
   matchD1At⟩

/-- The inline `RULES` list (src/app.py lines 217-228), in source order. -/
def RULES : List Rule := [ruleA1, ruleA2, ruleB3, ruleD1]

/-- The flags loop (src/app.py lines 232-238): for each rule in `RULES`
order, scan the original text and append one flag per match, built from
the rule's static fields and the matched span `m.group(0)`. -/
def lintFlags (text : List Char) : List Flag :=
  RULES.foldl
    (fun acc r =>
      acc ++ (finditer r.pat text).map
        (fun m => ⟨r.id, r.severity, m.2.1, r.message, r.suggestion⟩))
    []

/-- Replacement for rule R-A1 (src/app.py line 239): the literal
`ascend`. -/
def replA1 (_g0 : List Char) (_gs : Groups) : List Char := str "ascend"

/-- Value of group `i` for template expansion: Python `re.sub` expands a
backreference to an unmatched group as the empty string. -/
def groupVal (gs : Groups) (i : Nat) : List Char := (gs.getD i none).getD []

/-- Replacement template for rule R-A2 (src/app.py line 241):
`move materials up to \1 \2 using safe methods`. -/
def replA2 (_g0 : List Char) (gs : Groups) : List Char :=
  str "move materials up to " ++ groupVal gs 0 ++ str " " ++ groupVal gs 1 ++
    str " using safe methods"

/-- Replacement for rule R-B3 (src/app.py line 243): the fixed inclusive
phrase. -/
def replB3 (_g0 : List Char) (_gs : Groups) : List Char :=
  str "communicates clearly with mentors and closes the loop on tasks"

/-- The clean-copy chain (src/app.py lines 239-243): three `re.sub`
calls, R-A1 on the original text, R-A2 on its output, R-B3 on that
output. Rule R-D1 has no substitution. -/
def lintClean (text : List Char) : List Char :=
  reSub matchB3At replB3 (reSub matchA2At replA2 (reSub matchA1At replA1 text))

/-- Python `str.strip()` on ASCII whitespace: drop leading and trailing
whitespace. Only its emptiness is consulted by the handler. -/
def pyStrip (s : List Char) : List Char :=
  ((s.dropWhile isPySpace).reverse.dropWhile isPySpace).reverse

/-- The linter entry point (src/app.py lines 214-243): `flags` and
`clean` are initialised to `[]` and `""`; when the text strips to empty
the handler warns and leaves them untouched; otherwise the flags loop and
the substitution chain run. -/
def lint (text : List Char) : List Flag × List Char :=
  if pyStrip text = [] then ([], [])
  else (lintFlags text, lintClean text)

/-- Modelled from the spec's words (rewrite eligibility, §3/§4.2): the
substitution template of a rule, keyed by the fixed allow-list of
rewrite-eligible rule ids; detect-only rules have none. Used only to
state the rewrite-composition claim against the code's hard-coded
substitution chain. -/
def specRewrite (i : List Char) : Option (List Char → Groups → List Char) :=
  if i = str "R-A1" then some replA1
  else if i = str "R-A2" then some replA2
  else if i = str "R-B3" then some replB3
  else none

/-- Modelled from the spec's words (§4.2 step 2, §8 rewrite composition
order): the clean copy as the sequential application of each
rewrite-eligible rule's substitution in `RULES` order, each applied to
the previous rule's output, starting from the original text. -/
def cleanSpecOf (text : List Char) : List Char :=
  RULES.foldl
    (fun acc r =>
      match specRewrite r.id with
      | some repl => reSub r.pat repl acc
      | none => acc)
    text

/-- The pattern `pat`, read as a case-insensitive literal, occurs at the
start of `s`. -/
def ciStarts (pat s : List Char) : Prop :=
  pat.length ≤ s.length ∧ (s.take pat.length).map lc = pat.map lc

instance (pat s : List Char) : Decidable (ciStarts pat s) := by
  unfold ciStarts; infer_instance

/-- Number of positions of `s` (including overlapping ones) at which the
case-insensitive literal `pat` occurs. -/
def ciCount (pat : List Char) : List Char → Nat
  | [] => if ciStarts pat [] then 1 else 0
  | c :: cs => (if ciStarts pat (c :: cs) then 1 else 0) + ciCount pat cs

/-- The flags contributed by one rule: one flag per `finditer` match of
its pattern over the original text, in discovery order. -/
def ruleFlags (r : Rule) (t : List Char) : List Flag :=
  (finditer r.pat t).map (fun m => ⟨r.id, r.severity, m.2.1, r.message, r.suggestion⟩)

/-- No rule R-A1 match occurs at any split of `s`, where the character
context before `s` is `pw` (at a split `s = a ++ b`, the context
character for the word boundary is the last character of `a`, falling
back to `pw`). -/
def NoA1C (pw : Option Char) (s : List Char) : Prop :=
  ∀ a b : List Char, s = a ++ b → matchA1At (lastOr a pw) b = none

/-- A replacement string blocks R-A1 matches starting inside it: at
every split of `r` with a non-empty right part, no R-A1 match starts
there, whatever text follows and whatever the outer context is. -/
def ReplBlock (r : List Char) : Prop :=
  ∀ (pw : Option Char) (a b y : List Char), r = a ++ b → b ≠ [] →
    matchA1At (lastOr a pw) (b ++ y) = none

/-- The facts about a replacement string needed to show that a
substitution pass cannot create an R-A1 match: length at least 4, word
character at both ends, head not case-insensitively `n` or `g`, no
case-insensitive continuation of `climb` or `ing` at its head, and the
block property for matches starting inside it. -/
structure ReplOK (r : List Char) : Prop where
  len4 : 4 ≤ r.length
  headWord : wordHead r = true
  headNotNG : ∀ c rtl, r = c :: rtl → lc c ≠ 'n' ∧ lc c ≠ 'g'
  noClimbCont : ∀ j, 1 ≤ j → j ≤ 4 → ¬ ciStarts ((str "climb").drop j) r
  noIng : ¬ ciStarts (str "ing") r
  block : ReplBlock r
  lastWord : ∀ c, r.getLast? = some c → isWordChar c = true

/-- The facts about a matched span needed on the input side of the
junction analysis: it starts with a word character that is not
case-insensitively `n` or `g`. -/
structure SpanOK (g0 : List Char) : Prop where
  ex : ∃ c tl, g0 = c :: tl ∧ isWordChar c = true ∧ lc c ≠ 'n' ∧ lc c ≠ 'g'

/-- The chunk structure of a `subAux` run: the output is the input's
kept characters interleaved with replacements, chunk by chunk, with the
same context threading as `subAux` and `finditerAux`. -/
inductive Chunks (M : Matcher) (repl : List Char → Groups → List Char) :
    Option Char → List Char → List Char → Prop
  | done (prev : Option Char) : Chunks M repl prev [] []
  | keep (prev : Option Char) (c : Char) (cs out : List Char) :
      M prev (c :: cs) = none → Chunks M repl (some c) cs out →
      Chunks M repl prev (c :: cs) (c :: out)
  | rep (prev : Option Char) (c : Char) (cs g0 : List Char) (gs : Groups)
      (rest out : List Char) :
      M prev (c :: cs) = some (g0, gs, rest) →
      Chunks M repl (lastOr g0 prev) rest out →
      Chunks M repl prev (c :: cs) (repl g0 gs ++ out)

/-- Soundness of a match-at-position function: the matched span followed
by the returned remainder reassembles the input text. -/
def MSound (M : Matcher) : Prop :=
  ∀ p s g0 gs r, M p s = some (g0, gs, r) → g0 ++ r = s

/-- Non-emptiness of every matched span of a match-at-position
function. -/
def MPos (M : Matcher) : Prop :=
  ∀ p s g0 gs r, M p s = some (g0, gs, r) → g0 ≠ []

theorem ciSplit_eq_some {p s m r : List Char} (h : ciSplit p s = some (m, r)) :
    m ++ r = s ∧ m.length = p.length ∧ m.map lc = p.map lc := by
  induction p generalizing s m r with
  | nil =>
    simp only [ciSplit, Option.some.injEq, Prod.mk.injEq] at h
    obtain ⟨h1, h2⟩ := h
    subst h1; subst h2; simp
  | cons a ps ih =>
    cases s with
    | nil => simp [ciSplit] at h
    | cons c cs =>
      by_cases hc : lc c = lc a
      · cases hm : ciSplit ps cs with
        | none => simp [ciSplit, hc, hm] at h
        | some mr =>
          obtain ⟨m', r'⟩ := mr
          simp only [ciSplit, hc, if_true, hm, Option.some.injEq,
            Prod.mk.injEq] at h
          obtain ⟨h1, h2⟩ := h
          subst h1; subst h2
          obtain ⟨e1, e2, e3⟩ := ih hm
          refine ⟨by simpa using e1, by simpa using e2, ?_⟩
          simpa [hc] using e3
      · simp [ciSplit, hc] at h

theorem ciSplit_append {p s m r : List Char} (h : ciSplit p s = some (m, r)) :
    m ++ r = s :=
  (ciSplit_eq_some h).1

theorem ciSplit_ne_nil {p s m r : List Char} (hp : p ≠ [])
    (h : ciSplit p s = some (m, r)) : m ≠ [] := by
  intro hm
  have := (ciSplit_eq_some h).2.1
  rw [hm] at this
  exact hp (List.length_eq_zero.mp this.symm)

theorem matchUnitAt_append {s u r : List Char}
    (h : matchUnitAt s = some (u, r)) : u ++ r = s := by
  unfold matchUnitAt at h
  cases h1 : ciSplit (str "lb") s with
  | some mr => rw [h1] at h; cases mr; simp at h; obtain ⟨hu, hr⟩ := h
               subst hu; subst hr; exact ciSplit_append h1
  | none =>
    rw [h1] at h
    cases h2 : ciSplit (str "lbs") s with
    | some mr => rw [h2] at h; cases mr; simp at h; obtain ⟨hu, hr⟩ := h
                 subst hu; subst hr; exact ciSplit_append h2
    | none =>
      rw [h2] at h
      cases h3 : ciSplit (str "pounds") s with
      | some mr => rw [h3] at h; cases mr; simp at h; obtain ⟨hu, hr⟩ := h
                   subst hu; subst hr; exact ciSplit_append h3
      | none => rw [h3] at h; exact ciSplit_append h

theorem a2Tail_sound {pref rest g0 : List Char} {gs : Groups} {r : List Char}
    (h : a2Tail pref rest = some (g0, gs, r)) : g0 ++ r = pref ++ rest := by
  unfold a2Tail at h
  by_cases hds : (rest.dropWhile isPySpace).takeWhile Char.isDigit = []
  · simp only [hds, if_pos rfl] at h
    exact absurd h (by simp)
  · simp only [if_neg hds] at h
    cases hu : matchUnitAt (((rest.dropWhile isPySpace).dropWhile Char.isDigit).dropWhile isPySpace) with
    | some ur =>
      obtain ⟨u, r4⟩ := ur
      rw [hu] at h
      simp only [Option.some.injEq, Prod.mk.injEq] at h
      obtain ⟨h1, _h2, h3⟩ := h
      subst h1; subst h3
      have e1 := matchUnitAt_append hu
      simp only [List.append_assoc]
      rw [e1]
      rw [List.takeWhile_append_dropWhile, List.takeWhile_append_dropWhile,
        List.takeWhile_append_dropWhile]
    | none =>
      rw [hu] at h
      simp only [Option.some.injEq, Prod.mk.injEq] at h
      obtain ⟨h1, _h2, h3⟩ := h
      subst h1; subst h3
      simp only [List.append_assoc]
      rw [List.takeWhile_append_dropWhile, List.takeWhile_append_dropWhile,
        List.takeWhile_append_dropWhile]

theorem matchA1At_sound : MSound matchA1At := by
  intro p s g0 gs r h
  unfold matchA1At at h
  by_cases hw : wordOpt p
  · simp [hw] at h
  · simp only [hw, Bool.false_eq_true, if_false] at h
    cases h1 : ciSplit (str "climb") s with
    | none => rw [h1] at h; exact absurd h (by simp)
    | some mr1 =>
      obtain ⟨m1, r1⟩ := mr1
      rw [h1] at h
      dsimp only at h
      have e1 := ciSplit_append h1
      cases h2 : ciSplit (str "ing") r1 with
      | some mr2 =>
        obtain ⟨m2, r2⟩ := mr2
        rw [h2] at h
        dsimp only at h
        have e2 := ciSplit_append h2
        by_cases hw2 : wordHead r2
        · simp only [hw2, if_true] at h
          by_cases hw1 : wordHead r1
          · simp [hw1] at h
          · simp only [hw1, Bool.false_eq_true, if_false,
              Option.some.injEq, Prod.mk.injEq] at h
            obtain ⟨hg, _, hr⟩ := h
            subst hg; subst hr; exact e1
        · simp only [hw2, Bool.false_eq_true, if_false,
            Option.some.injEq, Prod.mk.injEq] at h
          obtain ⟨hg, _, hr⟩ := h
          subst hg; subst hr
          rw [List.append_assoc, e2]; exact e1
      | none =>
        rw [h2] at h
        dsimp only at h
        by_cases hw1 : wordHead r1
        · simp [hw1] at h
        · simp only [hw1, Bool.false_eq_true, if_false,
            Option.some.injEq, Prod.mk.injEq] at h
          obtain ⟨hg, _, hr⟩ := h
          subst hg; subst hr; exact e1

theorem matchA2At_sound : MSound matchA2At := by
  intro p s g0 gs r h
  unfold matchA2At at h
  cases h0 : ciSplit (str "lift") s with
  | none => rw [h0] at h; exact absurd h (by simp)
  | some mr0 =>
    obtain ⟨m0, r0⟩ := mr0
    rw [h0] at h
    dsimp only at h
    have e0 := ciSplit_append h0
    cases h1 : ciSplit (str "ing") r0 with
    | some mri =>
      obtain ⟨mi, ri⟩ := mri
      rw [h1] at h
      dsimp only at h
      have ei := ciSplit_append h1
      cases h2 : a2Tail (m0 ++ mi) ri with
      | some res =>
        rw [h2] at h
        dsimp only at h
        obtain ⟨g0', gs', r'⟩ := res
        simp only [Option.some.injEq, Prod.mk.injEq] at h
        obtain ⟨ha, _, hb⟩ := h
        subst ha; subst hb
        have := a2Tail_sound h2
        rw [this, List.append_assoc, ei]; exact e0
      | none =>
        rw [h2] at h
        dsimp only at h
        have := a2Tail_sound h
        rw [this]; exact e0
    | none =>
      rw [h1] at h
      dsimp only at h
      have := a2Tail_sound h
      rw [this]; exact e0

theorem ciSplitDash_append {p1 p2 s m r : List Char}
    (h : ciSplitDash p1 p2 s = some (m, r)) : m ++ r = s := by
  unfold ciSplitDash at h
  cases h1 : ciSplit p1 s with
  | none => rw [h1] at h; exact absurd h (by simp)
  | some mr1 =>
    obtain ⟨m1, r1⟩ := mr1
    rw [h1] at h
    have e1 := ciSplit_append h1
    cases r1 with
    | nil => exact absurd h (by simp)
    | cons c r2 =>
      by_cases hc : c = '-' || c = ' '
      · simp only [hc, if_true] at h
        cases h2 : ciSplit p2 r2 with
        | none => rw [h2] at h; exact absurd h (by simp)
        | some mr2 =>
          obtain ⟨m2, r3⟩ := mr2
          rw [h2] at h
          simp only [Option.some.injEq, Prod.mk.injEq] at h
          obtain ⟨hm, hr⟩ := h
          subst hm; subst hr
          have e2 := ciSplit_append h2
          rw [List.append_assoc, List.cons_append, e2]; exact e1
      · simp [hc] at h

theorem b3Alt_append {s m r : List Char} (h : b3Alt s = some (m, r)) :
    m ++ r = s := by
  unfold b3Alt at h
  cases h1 : ciSplit (str "excellent communication") s with
  | some mr => rw [h1] at h; cases mr; simp at h; obtain ⟨hm, hr⟩ := h
               subst hm; subst hr; exact ciSplit_append h1
  | none =>
    rw [h1] at h
    cases h2 : ciSplit (str "team player") s with
    | some mr => rw [h2] at h; cases mr; simp at h; obtain ⟨hm, hr⟩ := h
                 subst hm; subst hr; exact ciSplit_append h2
    | none =>
      rw [h2] at h
      cases h3 : ciSplitDash (str "self") (str "starter") s with
      | some mr => rw [h3] at h; cases mr; simp at h; obtain ⟨hm, hr⟩ := h
                   subst hm; subst hr; exact ciSplitDash_append h3
      | none =>
        rw [h3] at h
        cases h4 : ciSplit (str "strong work ethic") s with
        | some mr => rw [h4] at h; cases mr; simp at h; obtain ⟨hm, hr⟩ := h
                     subst hm; subst hr; exact ciSplit_append h4
        | none => rw [h4] at h; exact ciSplitDash_append h

theorem matchB3At_sound : MSound matchB3At := by
  intro p s g0 gs r h
  unfold matchB3At at h
  cases h1 : b3Alt s with
  | none => rw [h1] at h; exact absurd h (by simp)
  | some mr =>
    obtain ⟨m, r'⟩ := mr
    rw [h1] at h
    simp only [Option.some.injEq, Prod.mk.injEq] at h
    obtain ⟨hm, _, hr⟩ := h
    subst hm; subst hr
    exact b3Alt_append h1

theorem matchD1At_sound : MSound matchD1At := by
  intro p s g0 gs r h
  unfold matchD1At at h
  cases h1 : ciSplit D1phrase s with
  | none => rw [h1] at h; exact absurd h (by simp)
  | some mr =>
    obtain ⟨m, r'⟩ := mr
    rw [h1] at h
    simp only [Option.some.injEq, Prod.mk.injEq] at h
    obtain ⟨hm, _, hr⟩ := h
    subst hm; subst hr
    exact ciSplit_append h1

theorem finditerAux_infix {M : Matcher} (hM : MSound M) :
    ∀ (fuel pos : Nat) (prev : Option Char) (s : List Char)
      (e : Nat × List Char × Groups),
      e ∈ finditerAux M fuel pos prev s → e.2.1 <:+: s := by
  intro fuel
  induction fuel with
  | zero => intro pos prev s e he; simp [finditerAux] at he
  | succ n ih =>
    intro pos prev s e he
    cases s with
    | nil => simp [finditerAux] at he
    | cons c cs =>
      rw [finditerAux] at he
      cases hm : M prev (c :: cs) with
      | some res =>
        obtain ⟨g0, gs, rest⟩ := res
        rw [hm] at he
        have hsplit : g0 ++ rest = c :: cs := hM _ _ _ _ _ hm
        rcases List.mem_cons.mp he with h1 | h2
        · subst h1
          exact ⟨[], rest, by simpa using hsplit⟩
        · have := ih _ _ _ _ h2
          calc e.2.1 <:+: rest := this
            _ <:+: c :: cs := ⟨g0, [], by simpa using hsplit⟩
      | none =>
        rw [hm] at he
        have := ih _ _ _ _ he
        exact this.trans ⟨[c], [], by simp⟩

theorem finditer_infix {M : Matcher} (hM : MSound M) {s : List Char}
    {e : Nat × List Char × Groups} (he : e ∈ finditer M s) : e.2.1 <:+: s :=
  finditerAux_infix hM _ _ _ _ _ he

theorem lintFlags_eq (t : List Char) :
    lintFlags t =
      ruleFlags ruleA1 t ++ ruleFlags ruleA2 t ++ ruleFlags ruleB3 t ++
        ruleFlags ruleD1 t := by
  simp [lintFlags, RULES, ruleFlags]

theorem matchA1At_pos : MPos matchA1At := by
  intro p s g0 gs r h
  unfold matchA1At at h
  by_cases hw : wordOpt p
  · simp [hw] at h
  · simp only [hw, Bool.false_eq_true, if_false] at h
    cases h1 : ciSplit (str "climb") s with
    | none => rw [h1] at h; exact absurd h (by simp)
    | some mr1 =>
      obtain ⟨m1, r1⟩ := mr1
      rw [h1] at h; dsimp only at h
      have hm1 : m1 ≠ [] := ciSplit_ne_nil (by decide) h1
      cases h2 : ciSplit (str "ing") r1 with
      | some mr2 =>
        obtain ⟨m2, r2⟩ := mr2
        rw [h2] at h; dsimp only at h
        by_cases hw2 : wordHead r2
        · simp only [hw2, if_true] at h
          by_cases hw1 : wordHead r1
          · simp [hw1] at h
          · simp only [hw1, Bool.false_eq_true, if_false,
              Option.some.injEq, Prod.mk.injEq] at h
            obtain ⟨hg, _, _⟩ := h
            subst hg; exact hm1
        · simp only [hw2, Bool.false_eq_true, if_false,
            Option.some.injEq, Prod.mk.injEq] at h
          obtain ⟨hg, _, _⟩ := h
          subst hg
          simp [List.append_eq_nil, hm1]
      | none =>
        rw [h2] at h; dsimp only at h
        by_cases hw1 : wordHead r1
        · simp [hw1] at h
        · simp only [hw1, Bool.false_eq_true, if_false,
            Option.some.injEq, Prod.mk.injEq] at h
          obtain ⟨hg, _, _⟩ := h
          subst hg; exact hm1

theorem a2Tail_pos {pref rest g0 : List Char} {gs : Groups} {r : List Char}
    (hpref : pref ≠ []) (h : a2Tail pref rest = some (g0, gs, r)) :
    g0 ≠ [] := by
  unfold a2Tail at h
  by_cases hds : (rest.dropWhile isPySpace).takeWhile Char.isDigit = []
  · simp only [hds, if_pos rfl] at h
    exact absurd h (by simp)
  · simp only [if_neg hds] at h
    cases hu : matchUnitAt (((rest.dropWhile isPySpace).dropWhile Char.isDigit).dropWhile isPySpace) with
    | some ur =>
      obtain ⟨u, r4⟩ := ur
      rw [hu] at h
      simp only [Option.some.injEq, Prod.mk.injEq] at h
      obtain ⟨h1, _, _⟩ := h
      subst h1
      simp [List.append_eq_nil, hpref]
    | none =>
      rw [hu] at h
      simp only [Option.some.injEq, Prod.mk.injEq] at h
      obtain ⟨h1, _, _⟩ := h
      subst h1
      simp [List.append_eq_nil, hpref]

theorem matchA2At_pos : MPos matchA2At := by
  intro p s g0 gs r h
  unfold matchA2At at h
  cases h0 : ciSplit (str "lift") s with
  | none => rw [h0] at h; exact absurd h (by simp)
  | some mr0 =>
    obtain ⟨m0, r0⟩ := mr0
    rw [h0] at h; dsimp only at h
    have hm0 : m0 ≠ [] := ciSplit_ne_nil (by decide) h0
    cases h1 : ciSplit (str "ing") r0 with
    | some mri =>
      obtain ⟨mi, ri⟩ := mri
      rw [h1] at h; dsimp only at h
      cases h2 : a2Tail (m0 ++ mi) ri with
      | some res =>
        obtain ⟨g0', gs', r'⟩ := res
        rw [h2] at h; dsimp only at h
        simp only [Option.some.injEq, Prod.mk.injEq] at h
        obtain ⟨ha, _, _⟩ := h
        subst ha
        exact a2Tail_pos (by simp [List.append_eq_nil, hm0]) h2
      | none =>
        rw [h2] at h; dsimp only at h
        exact a2Tail_pos hm0 h
    | none =>
      rw [h1] at h; dsimp only at h
      exact a2Tail_pos hm0 h

theorem ciSplitDash_ne_nil {p1 p2 s m r : List Char}
    (h : ciSplitDash p1 p2 s = some (m, r)) : m ≠ [] := by
  unfold ciSplitDash at h
  cases h1 : ciSplit p1 s with
  | none => rw [h1] at h; exact absurd h (by simp)
  | some mr1 =>
    obtain ⟨m1, r1⟩ := mr1
    rw [h1] at h
    cases r1 with
    | nil => exact absurd h (by simp)
    | cons c r2 =>
      by_cases hc : c = '-' || c = ' '
      · simp only [hc, if_true] at h
        cases h2 : ciSplit p2 r2 with
        | none => rw [h2] at h; exact absurd h (by simp)
        | some mr2 =>
          obtain ⟨m2, r3⟩ := mr2
          rw [h2] at h
          simp only [Option.some.injEq, Prod.mk.injEq] at h
          obtain ⟨hm, _⟩ := h
          subst hm
          simp
      · simp [hc] at h

theorem b3Alt_ne_nil {s m r : List Char} (h : b3Alt s = some (m, r)) :
    m ≠ [] := by
  unfold b3Alt at h
  cases h1 : ciSplit (str "excellent communication") s with
  | some mr => rw [h1] at h; cases mr; simp at h; obtain ⟨hm, _⟩ := h
               subst hm; exact ciSplit_ne_nil (by decide) h1
  | none =>
    rw [h1] at h
    cases h2 : ciSplit (str "team player") s with
    | some mr => rw [h2] at h; cases mr; simp at h; obtain ⟨hm, _⟩ := h
                 subst hm; exact ciSplit_ne_nil (by decide) h2
    | none =>
      rw [h2] at h
      cases h3 : ciSplitDash (str "self") (str "starter") s with
      | some mr => rw [h3] at h; cases mr; simp at h; obtain ⟨hm, _⟩ := h
                   subst hm; exact ciSplitDash_ne_nil h3
      | none =>
        rw [h3] at h
        cases h4 : ciSplit (str "strong work ethic") s with
        | some mr => rw [h4] at h; cases mr; simp at h; obtain ⟨hm, _⟩ := h
                     subst hm; exact ciSplit_ne_nil (by decide) h4
        | none => rw [h4] at h; exact ciSplitDash_ne_nil h

theorem matchB3At_pos : MPos matchB3At := by
  intro p s g0 gs r h
  unfold matchB3At at h
  cases h1 : b3Alt s with
  | none => rw [h1] at h; exact absurd h (by simp)
  | some mr =>
    obtain ⟨m, r'⟩ := mr
    rw [h1] at h
    simp only [Option.some.injEq, Prod.mk.injEq] at h
    obtain ⟨hm, _, _⟩ := h
    subst hm
    exact b3Alt_ne_nil h1

theorem matchD1At_pos : MPos matchD1At := by
  intro p s g0 gs r h
  unfold matchD1At at h
  cases h1 : ciSplit D1phrase s with
  | none => rw [h1] at h; exact absurd h (by simp)
  | some mr =>
    obtain ⟨m, r'⟩ := mr
    rw [h1] at h
    simp only [Option.some.injEq, Prod.mk.injEq] at h
    obtain ⟨hm, _, _⟩ := h
    subst hm
    exact ciSplit_ne_nil (by decide) h1

theorem finditerAux_pos_le {M : Matcher} :
    ∀ (fuel pos : Nat) (prev : Option Char) (s : List Char)
      (e : Nat × List Char × Groups),
      e ∈ finditerAux M fuel pos prev s → pos ≤ e.1 := by
  intro fuel
  induction fuel with
  | zero => intro pos prev s e he; simp [finditerAux] at he
  | succ n ih =>
    intro pos prev s e he
    cases s with
    | nil => simp [finditerAux] at he
    | cons c cs =>
      rw [finditerAux] at he
      cases hm : M prev (c :: cs) with
      | some res =>
        obtain ⟨g0, gs, rest⟩ := res
        rw [hm] at he
        rcases List.mem_cons.mp he with h1 | h2
        · subst h1; exact le_refl _
        · exact le_trans (Nat.le_add_right _ _) (ih _ _ _ _ h2)
      | none =>
        rw [hm] at he
        exact le_trans (Nat.le_add_right _ _) (ih _ _ _ _ he)

theorem finditerAux_pairwise {M : Matcher} (hM : MPos M) :
    ∀ (fuel pos : Nat) (prev : Option Char) (s : List Char),
      List.Pairwise (fun a b => a.1 + a.2.1.length ≤ b.1 ∧ a.1 < b.1)
        (finditerAux M fuel pos prev s) := by
  intro fuel
  induction fuel with
  | zero => intro pos prev s; simp [finditerAux]
  | succ n ih =>
    intro pos prev s
    cases s with
    | nil => simp [finditerAux]
    | cons c cs =>
      rw [finditerAux]
      cases hm : M prev (c :: cs) with
      | some res =>
        obtain ⟨g0, gs, rest⟩ := res
        refine List.Pairwise.cons ?_ (ih _ _ _)
        intro b hb
        have hle := finditerAux_pos_le _ _ _ _ _ hb
        have hpos : 0 < g0.length :=
          List.length_pos.mpr (hM _ _ _ _ _ hm)
        exact ⟨hle, lt_of_lt_of_le (Nat.lt_add_of_pos_right hpos) hle⟩
      | none => exact ih _ _ _

theorem finditerAux_at {M : Matcher} (hM : MSound M) :
    ∀ (fuel pos : Nat) (prev : Option Char) (s : List Char)
      (e : Nat × List Char × Groups),
      e ∈ finditerAux M fuel pos prev s →
      ∃ i, e.1 = pos + i ∧ e.2.1 = (s.drop i).take e.2.1.length := by
  intro fuel
  induction fuel with
  | zero => intro pos prev s e he; simp [finditerAux] at he
  | succ n ih =>
    intro pos prev s e he
    cases s with
    | nil => simp [finditerAux] at he
    | cons c cs =>
      rw [finditerAux] at he
      cases hm : M prev (c :: cs) with
      | some res =>
        obtain ⟨g0, gs, rest⟩ := res
        rw [hm] at he
        have hsplit : g0 ++ rest = c :: cs := hM _ _ _ _ _ hm
        rcases List.mem_cons.mp he with h1 | h2
        · subst h1
          refine ⟨0, by simp, ?_⟩
          simp only [List.drop_zero, ← hsplit]
          exact (List.take_left g0 rest).symm
        · obtain ⟨i, hi, hmatch⟩ := ih _ _ _ _ h2
          refine ⟨g0.length + i, by omega, ?_⟩
          rw [← hsplit, List.drop_append]
          exact hmatch
      | none =>
        rw [hm] at he
        obtain ⟨i, hi, hmatch⟩ := ih _ _ _ _ he
        exact ⟨i + 1, by omega, hmatch⟩

theorem finditer_at {M : Matcher} (hM : MSound M) {s : List Char}
    {e : Nat × List Char × Groups} (he : e ∈ finditer M s) :
    e.2.1 = (s.drop e.1).take e.2.1.length := by
  obtain ⟨i, hi, hm⟩ := finditerAux_at hM _ _ _ _ _ he
  rw [Nat.zero_add] at hi
  rw [hi]
  exact hm

theorem isPySpace_elim {c : Char} (h : isPySpace c = true) :
    c = ' ' ∨ c = '\t' ∨ c = '\n' ∨ c = '\r' ∨ c = '\x0b' ∨ c = '\x0c' := by
  simp only [isPySpace, Bool.or_eq_true, decide_eq_true_eq] at h
  tauto

theorem ciSplit_head_ne {p : Char} {ps : List Char} {c : Char} {cs : List Char}
    (h : ¬ lc c = lc p) : ciSplit (p :: ps) (c :: cs) = none := by
  simp [ciSplit, h]

theorem matchA1At_space {p : Option Char} {c : Char} {cs : List Char}
    (h : isPySpace c = true) : matchA1At p (c :: cs) = none := by
  have hne : ¬ lc c = lc 'c' := by
    rcases isPySpace_elim h with h | h | h | h | h | h <;> subst h <;> decide
  have hcs : ciSplit (str "climb") (c :: cs) = none := by
    have e : str "climb" = 'c' :: str "limb" := rfl
    rw [e]
    exact ciSplit_head_ne hne
  simp [matchA1At, hcs]

theorem matchA2At_space {p : Option Char} {c : Char} {cs : List Char}
    (h : isPySpace c = true) : matchA2At p (c :: cs) = none := by
  have hne : ¬ lc c = lc 'l' := by
    rcases isPySpace_elim h with h | h | h | h | h | h <;> subst h <;> decide
  have hcs : ciSplit (str "lift") (c :: cs) = none := by
    have e : str "lift" = 'l' :: str "ift" := rfl
    rw [e]
    exact ciSplit_head_ne hne
  simp [matchA2At, hcs]

theorem matchB3At_space {p : Option Char} {c : Char} {cs : List Char}
    (h : isPySpace c = true) : matchB3At p (c :: cs) = none := by
  have hne : ∀ a : Char, a = 'e' ∨ a = 't' ∨ a = 's' ∨ a = 'd' → ¬ lc c = lc a := by
    intro a ha
    rcases isPySpace_elim h with h | h | h | h | h | h <;> subst h <;>
      rcases ha with rfl | rfl | rfl | rfl <;> decide
  have h1 : ciSplit (str "excellent communication") (c :: cs) = none := by
    have e : str "excellent communication" = 'e' :: str "xcellent communication" := rfl
    rw [e]; exact ciSplit_head_ne (hne 'e' (by simp))
  have h2 : ciSplit (str "team player") (c :: cs) = none := by
    have e : str "team player" = 't' :: str "eam player" := rfl
    rw [e]; exact ciSplit_head_ne (hne 't' (by simp))
  have h3 : ciSplit (str "self") (c :: cs) = none := by
    have e : str "self" = 's' :: str "elf" := rfl
    rw [e]; exact ciSplit_head_ne (hne 's' (by simp))
  have h4 : ciSplit (str "strong work ethic") (c :: cs) = none := by
    have e : str "strong work ethic" = 's' :: str "trong work ethic" := rfl
    rw [e]; exact ciSplit_head_ne (hne 's' (by simp))
  have h5 : ciSplit (str "detail") (c :: cs) = none := by
    have e : str "detail" = 'd' :: str "etail" := rfl
    rw [e]; exact ciSplit_head_ne (hne 'd' (by simp))
  simp [matchB3At, b3Alt, ciSplitDash, h1, h2, h3, h4, h5]

theorem matchD1At_space {p : Option Char} {c : Char} {cs : List Char}
    (h : isPySpace c = true) : matchD1At p (c :: cs) = none := by
  have hne : ¬ lc c = lc 'w' := by
    rcases isPySpace_elim h with h | h | h | h | h | h <;> subst h <;> decide
  have hcs : ciSplit D1phrase (c :: cs) = none := by
    have e : D1phrase = 'w' :: str "ith or without reasonable accommodation" := rfl
    rw [e]
    exact ciSplit_head_ne hne
  simp [matchD1At, hcs]

theorem finditerAux_nil_of_space {M : Matcher}
    (hsp : ∀ (p : Option Char) (c : Char) (cs : List Char),
      isPySpace c = true → M p (c :: cs) = none) :
    ∀ (fuel pos : Nat) (prev : Option Char) (s : List Char),
      s.all isPySpace = true → finditerAux M fuel pos prev s = [] := by
  intro fuel
  induction fuel with
  | zero => intro pos prev s _; simp [finditerAux]
  | succ n ih =>
    intro pos prev s hs
    cases s with
    | nil => simp [finditerAux]
    | cons c cs =>
      rw [finditerAux]
      simp only [List.all_cons, Bool.and_eq_true] at hs
      rw [hsp _ _ _ hs.1]
      exact ih _ _ _ hs.2

theorem pyStrip_nil_all {t : List Char} (h : pyStrip t = []) :
    t.all isPySpace = true := by
  unfold pyStrip at h
  rw [List.reverse_eq_nil_iff, List.dropWhile_eq_nil_iff] at h
  rw [List.all_eq_true]
  intro c hc
  rw [← List.takeWhile_append_dropWhile (p := isPySpace) (l := t),
    List.mem_append] at hc
  rcases hc with hc | hc
  · exact List.mem_takeWhile_imp hc
  · exact h c (List.mem_reverse.mpr hc)

theorem matchA1At_nil (p : Option Char) : matchA1At p [] = none := by
  have h0 : ciSplit (str "climb") ([] : List Char) = none := rfl
  by_cases hw : wordOpt p <;> simp [matchA1At, hw, h0]

theorem finditer_A1_space {t : List Char} (h : t.all isPySpace = true) :
    finditer matchA1At t = [] :=
  finditerAux_nil_of_space (fun _ _ _ hc => matchA1At_space hc) _ _ _ _ h

theorem finditer_A2_space {t : List Char} (h : t.all isPySpace = true) :
    finditer matchA2At t = [] :=
  finditerAux_nil_of_space (fun _ _ _ hc => matchA2At_space hc) _ _ _ _ h

theorem finditer_B3_space {t : List Char} (h : t.all isPySpace = true) :
    finditer matchB3At t = [] :=
  finditerAux_nil_of_space (fun _ _ _ hc => matchB3At_space hc) _ _ _ _ h

theorem finditer_D1_space {t : List Char} (h : t.all isPySpace = true) :
    finditer matchD1At t = [] :=
  finditerAux_nil_of_space (fun _ _ _ hc => matchD1At_space hc) _ _ _ _ h

theorem ruleFlags_A1_space {t : List Char} (h : t.all isPySpace = true) :
    ruleFlags ruleA1 t = [] := by
  unfold ruleFlags
  rw [show finditer ruleA1.pat t = [] from finditer_A1_space h]
  rfl

theorem ruleFlags_A2_space {t : List Char} (h : t.all isPySpace = true) :
    ruleFlags ruleA2 t = [] := by
  unfold ruleFlags
  rw [show finditer ruleA2.pat t = [] from finditer_A2_space h]
  rfl

theorem ruleFlags_B3_space {t : List Char} (h : t.all isPySpace = true) :
    ruleFlags ruleB3 t = [] := by
  unfold ruleFlags
  rw [show finditer ruleB3.pat t = [] from finditer_B3_space h]
  rfl

theorem ruleFlags_D1_space {t : List Char} (h : t.all isPySpace = true) :
    ruleFlags ruleD1 t = [] := by
  unfold ruleFlags
  rw [show finditer ruleD1.pat t = [] from finditer_D1_space h]
  rfl

/-- Claim C1, refutation: on the input
`"We need a detail-oriented team player."` the linter produces two R-B3
flags, not exactly one as claimed — `re.finditer` reports every
non-overlapping match, so both `detail-oriented` and `team player` are
flagged. -/
theorem claim1_refuted :
    ¬ ((lint (str "We need a detail-oriented team player.")).1.countP
        (fun f => f.rule_id == str "R-B3") = 1) := by decide

/-- Claim C1, amended: on the input
`"We need a detail-oriented team player."` the linter produces exactly
two R-B3 flags, matching `detail-oriented` and then `team player`, and
the clean copy replaces both matched spans with the fixed phrase, leaving
the rest of the sentence intact. -/
theorem claim1_amended :
    lint (str "We need a detail-oriented team player.") =
      ([⟨str "R-B3", str "info", str "detail-oriented",
         str "Vague soft-skill language.", str "Define observable behaviors."⟩,
        ⟨str "R-B3", str "info", str "team player",
         str "Vague soft-skill language.", str "Define observable behaviors."⟩],
       str "We need a communicates clearly with mentors and closes the loop on tasks communicates clearly with mentors and closes the loop on tasks.") := by
  decide

/-- Claim C2, refutation: on the whitespace-only input `" "` the handler
takes the empty-text guard, so the clean copy is the empty string and not
the result of the sequential substitution chain (which would leave `" "`
unchanged). -/
theorem claim2_refuted :
    ¬ ((lint (str " ")).2 = cleanSpecOf (str " ")) := by decide

/-- Claim C2, amended: for every input text with some non-whitespace
content, the clean copy equals the sequential application of the
rewrite-eligible rules' substitutions in `RULES` order (R-A1, then R-A2,
then R-B3), each applied to the previous one's output starting from the
original text; on whitespace-only input the guard yields the empty string
instead. -/
theorem claim2_rewrite_order (t : List Char) (h : pyStrip t ≠ []) :
    (lint t).2 = cleanSpecOf t := by
  have hspec : cleanSpecOf t = lintClean t := rfl
  simp [lint, if_neg h, hspec]

/-- Claim C2, witness: the rewrite-composition equality evaluated at the
concrete input `"climb"`. -/
theorem claim2_rewrite_order_witness :
    pyStrip (str "climb") ≠ [] ∧ (lint (str "climb")).2 = cleanSpecOf (str "climb") :=
  ⟨by decide, claim2_rewrite_order (str "climb") (by decide)⟩

/-- Claim C4, refutation: on the whitespace-only input `" "` the linter
yields an empty flags sequence, but the clean copy is the empty string,
not a copy equal to the input. -/
theorem claim4_refuted :
    (lint (str " ")).1 = [] ∧ (lint (str " ")).2 ≠ str " " := by decide

/-- Claim C4, amended: for every empty or whitespace-only input text the
linter yields an empty flags sequence and an empty clean copy (equal to
the input exactly when the input is empty), and never fails. -/
theorem claim4_empty_guard (t : List Char) (h : pyStrip t = []) :
    lint t = ([], []) := by
  simp [lint, if_pos h]

/-- Claim C4, witness: the guard behaviour evaluated at the concrete
whitespace-only input `" "`. -/
theorem claim4_empty_guard_witness :
    pyStrip (str " ") = [] ∧ lint (str " ") = ([], []) :=
  ⟨by decide, claim4_empty_guard (str " ") (by decide)⟩

/-- Claim C5, refutation: on the input `"climb"` the linter's single flag
record carries exactly the five keys `rule_id`, `severity`, `match`,
`message`, `suggestion`; no `category` key is present, contradicting the
claimed six fields. -/
theorem claim5_refuted :
    ((lint (str "climb")).1.map (fun f => (flagToDict f).map Prod.fst)) =
        [[str "rule_id", str "severity", str "match", str "message",
          str "suggestion"]] ∧
      str "category" ∉
        [str "rule_id", str "severity", str "match", str "message",
         str "suggestion"] := by decide

/-- Claim C5, amended: every flag record created by the linter carries
exactly the five fields `rule_id`, `severity`, `match`, `message` and
`suggestion`; the `category` field of the claim does not exist (neither
the inline rules nor the flag dicts carry one). -/
theorem claim5_flag_fields (t : List Char) (f : Flag) (_h : f ∈ (lint t).1) :
    (flagToDict f).map Prod.fst =
      [str "rule_id", str "severity", str "match", str "message",
       str "suggestion"] := rfl

/-- Claim C5, witness: the field list evaluated on the concrete flag the
linter produces for the input `"climb"`. -/
theorem claim5_flag_fields_witness :
    (⟨str "R-A1", str "warn", str "climb",
      str "Replace physical-method verb with task-focused wording.",
      str "Use \x27ascend a ladder\x27 or \x27access elevated work areas\x27."⟩ : Flag)
        ∈ (lint (str "climb")).1 ∧
      (flagToDict
        ⟨str "R-A1", str "warn", str "climb",
         str "Replace physical-method verb with task-focused wording.",
         str "Use \x27ascend a ladder\x27 or \x27access elevated work areas\x27."⟩).map
          Prod.fst =
        [str "rule_id", str "severity", str "match", str "message",
         str "suggestion"] :=
  ⟨by decide,
   claim5_flag_fields (str "climb")
     ⟨str "R-A1", str "warn", str "climb",
      str "Replace physical-method verb with task-focused wording.",
      str "Use \x27ascend a ladder\x27 or \x27access elevated work areas\x27."⟩
     (by decide)⟩

/-- Claim C6: on the input
`"Workers must enjoy climbing ladders and lifting 50 lbs daily."` the
code flags R-A1 `climbing` as claimed, but R-A2 matches only
`lifting 50 lb` — the alternation `(lb|lbs|pounds|kg)` tries `lb` before
`lbs`, so `lbs` can never be matched in full — and the clean copy reads
`... move materials up to 50 lb using safe methodss daily.` with the
orphaned `s`, instead of the claimed `... 50 lbs using safe methods
daily.` This theorem records the code's actual behaviour at the claimed
input. -/
theorem claim6_code_divergence :
    lint (str "Workers must enjoy climbing ladders and lifting 50 lbs daily.") =
      ([⟨str "R-A1", str "warn", str "climbing",
         str "Replace physical-method verb with task-focused wording.",
         str "Use \x27ascend a ladder\x27 or \x27access elevated work areas\x27."⟩,
        ⟨str "R-A2", str "warn", str "lifting 50 lb",
         str "Hard physical requirement may exclude qualified candidates if not essential.",
         str "State the task and allow assistive devices/team lifts."⟩],
       str "Workers must enjoy ascend ladders and move materials up to 50 lb using safe methodss daily.") := by
  decide

/-- Claim C3: detection runs against the original, unmodified input text
and never the partially rewritten clean copy — every flag's `match` field
is a contiguous substring of the original text (in the embedding the
flags are computed by `lintFlags` directly from the original text, so
they are a function of it alone and never reflect rewritten text). -/
theorem claim3_flags_from_original (t : List Char) (f : Flag)
    (h : f ∈ (lint t).1) : f.matchStr <:+: t := by
  by_cases hg : pyStrip t = []
  · simp [lint, if_pos hg] at h
  · simp only [lint, if_neg hg] at h
    rw [lintFlags_eq] at h
    simp only [List.mem_append] at h
    rcases h with ((h | h) | h) | h
    · simp only [ruleFlags, List.mem_map] at h
      obtain ⟨e, he, hf⟩ := h
      subst hf
      exact finditer_infix matchA1At_sound he
    · simp only [ruleFlags, List.mem_map] at h
      obtain ⟨e, he, hf⟩ := h
      subst hf
      exact finditer_infix matchA2At_sound he
    · simp only [ruleFlags, List.mem_map] at h
      obtain ⟨e, he, hf⟩ := h
      subst hf
      exact finditer_infix matchB3At_sound he
    · simp only [ruleFlags, List.mem_map] at h
      obtain ⟨e, he, hf⟩ := h
      subst hf
      exact finditer_infix matchD1At_sound he

/-- Claim C3, witness: the flag produced for the input `"a team player"`
has a `match` field that is a substring of that original input. -/
theorem claim3_flags_from_original_witness :
    (⟨str "R-B3", str "info", str "team player",
      str "Vague soft-skill language.",
      str "Define observable behaviors."⟩ : Flag) ∈
        (lint (str "a team player")).1 ∧
      (⟨str "R-B3", str "info", str "team player",
        str "Vague soft-skill language.",
        str "Define observable behaviors."⟩ : Flag).matchStr <:+:
        str "a team player" :=
  ⟨by decide,
   claim3_flags_from_original (str "a team player")
     ⟨str "R-B3", str "info", str "team player",
      str "Vague soft-skill language.",
      str "Define observable behaviors."⟩ (by decide)⟩

/-- Claim C8: the flags sequence is the concatenation, in `RULES` order
(R-A1, R-A2, R-B3, R-D1), of each rule's flags, and within each rule the
matches are reported in strictly increasing, non-overlapping,
left-to-right position order in the original text (each recorded span
occurs at its recorded position of the original text). -/
theorem claim8_flag_order (t : List Char) :
    (lint t).1 =
      ruleFlags ruleA1 t ++ ruleFlags ruleA2 t ++ ruleFlags ruleB3 t ++
        ruleFlags ruleD1 t ∧
      ∀ r, r ∈ RULES →
        List.Pairwise (fun a b => a.1 + a.2.1.length ≤ b.1 ∧ a.1 < b.1)
            (finditer r.pat t) ∧
          ∀ e ∈ finditer r.pat t, e.2.1 = (t.drop e.1).take e.2.1.length := by
  constructor
  · by_cases hg : pyStrip t = []
    · have hall : t.all isPySpace = true := pyStrip_nil_all hg
      rw [ruleFlags_A1_space hall, ruleFlags_A2_space hall,
        ruleFlags_B3_space hall, ruleFlags_D1_space hall]
      simp [lint, if_pos hg]
    · simp only [lint, if_neg hg]
      exact lintFlags_eq t
  · intro r hr
    have hr4 : r = ruleA1 ∨ r = ruleA2 ∨ r = ruleB3 ∨ r = ruleD1 := by
      simpa [RULES] using hr
    rcases hr4 with rfl | rfl | rfl | rfl
    · exact ⟨finditerAux_pairwise matchA1At_pos _ _ _ _,
        fun e he => finditer_at matchA1At_sound he⟩
    · exact ⟨finditerAux_pairwise matchA2At_pos _ _ _ _,
        fun e he => finditer_at matchA2At_sound he⟩
    · exact ⟨finditerAux_pairwise matchB3At_pos _ _ _ _,
        fun e he => finditer_at matchB3At_sound he⟩
    · exact ⟨finditerAux_pairwise matchD1At_pos _ _ _ _,
        fun e he => finditer_at matchD1At_sound he⟩

/-- Claim C8, witness: the ordering property evaluated at the concrete
input `"team player lift 3"` and rule R-A2. -/
theorem claim8_flag_order_witness :
    ((lint (str "team player lift 3")).1 =
      ruleFlags ruleA1 (str "team player lift 3") ++
        ruleFlags ruleA2 (str "team player lift 3") ++
        ruleFlags ruleB3 (str "team player lift 3") ++
        ruleFlags ruleD1 (str "team player lift 3")) ∧
      (List.Pairwise (fun a b => a.1 + a.2.1.length ≤ b.1 ∧ a.1 < b.1)
          (finditer ruleA2.pat (str "team player lift 3")) ∧
        ∀ e ∈ finditer ruleA2.pat (str "team player lift 3"),
          e.2.1 = ((str "team player lift 3").drop e.1).take e.2.1.length) :=
  ⟨(claim8_flag_order (str "team player lift 3")).1,
   (claim8_flag_order (str "team player lift 3")).2 ruleA2
     (by unfold RULES; exact List.mem_cons_of_mem _ (List.mem_cons_self _ _))⟩

theorem finditerAux_from_match {M : Matcher} :
    ∀ (fuel pos : Nat) (prev : Option Char) (s : List Char)
      (e : Nat × List Char × Groups),
      e ∈ finditerAux M fuel pos prev s →
      ∃ p u r, M p u = some (e.2.1, e.2.2, r) := by
  intro fuel
  induction fuel with
  | zero => intro pos prev s e he; simp [finditerAux] at he
  | succ n ih =>
    intro pos prev s e he
    cases s with
    | nil => simp [finditerAux] at he
    | cons c cs =>
      rw [finditerAux] at he
      cases hm : M prev (c :: cs) with
      | some res =>
        obtain ⟨g0, gs, rest⟩ := res
        rw [hm] at he
        rcases List.mem_cons.mp he with h1 | h2
        · subst h1; exact ⟨prev, c :: cs, rest, hm⟩
        · exact ih _ _ _ _ h2
      | none =>
        rw [hm] at he
        exact ih _ _ _ _ he

theorem finditerAux_repl_infix {M : Matcher}
    (repl : List Char → Groups → List Char) :
    ∀ (fuel pos : Nat) (prev : Option Char) (s : List Char)
      (e : Nat × List Char × Groups),
      e ∈ finditerAux M fuel pos prev s →
      repl e.2.1 e.2.2 <:+: subAux M repl fuel prev s := by
  intro fuel
  induction fuel with
  | zero => intro pos prev s e he; simp [finditerAux] at he
  | succ n ih =>
    intro pos prev s e he
    cases s with
    | nil => simp [finditerAux] at he
    | cons c cs =>
      rw [finditerAux] at he
      cases hm : M prev (c :: cs) with
      | some res =>
        obtain ⟨g0, gs, rest⟩ := res
        rw [hm] at he
        rw [subAux, hm]
        rcases List.mem_cons.mp he with h1 | h2
        · subst h1
          exact ⟨[], subAux M repl n (lastOr g0 prev) rest, by simp⟩
        · exact (ih _ _ _ _ h2).trans
            ⟨repl g0 gs, [], by simp⟩
      | none =>
        rw [hm] at he
        rw [subAux, hm]
        exact (ih _ _ _ _ he).trans ⟨[c], [], by simp⟩

theorem finditer_repl_infix {M : Matcher}
    (repl : List Char → Groups → List Char) {s : List Char}
    {e : Nat × List Char × Groups} (he : e ∈ finditer M s) :
    repl e.2.1 e.2.2 <:+: reSub M repl s :=
  finditerAux_repl_infix repl _ _ _ _ _ he

theorem a2Tail_inv {pref rest g0 : List Char} {gs : Groups} {r : List Char}
    (h : a2Tail pref rest = some (g0, gs, r)) :
    ∃ sp1 ds sp2 : List Char,
      sp1.all isPySpace = true ∧ ds ≠ [] ∧ ds.all Char.isDigit = true ∧
      sp2.all isPySpace = true ∧
      ((∃ u, gs = [some ds, some u] ∧ g0 = pref ++ sp1 ++ ds ++ sp2 ++ u) ∨
        (gs = [some ds, none] ∧ g0 = pref ++ sp1 ++ ds ++ sp2)) := by
  unfold a2Tail at h
  by_cases hds : (rest.dropWhile isPySpace).takeWhile Char.isDigit = []
  · simp only [hds, if_pos rfl] at h
    exact absurd h (by simp)
  · simp only [if_neg hds] at h
    refine ⟨rest.takeWhile isPySpace,
      (rest.dropWhile isPySpace).takeWhile Char.isDigit,
      ((rest.dropWhile isPySpace).dropWhile Char.isDigit).takeWhile isPySpace,
      List.all_takeWhile, hds, List.all_takeWhile, List.all_takeWhile, ?_⟩
    cases hu : matchUnitAt (((rest.dropWhile isPySpace).dropWhile Char.isDigit).dropWhile isPySpace) with
    | some ur =>
      obtain ⟨u, r4⟩ := ur
      rw [hu] at h
      simp only [Option.some.injEq, Prod.mk.injEq] at h
      obtain ⟨h1, h2, _⟩ := h
      exact Or.inl ⟨u, h2.symm, h1.symm⟩
    | none =>
      rw [hu] at h
      simp only [Option.some.injEq, Prod.mk.injEq] at h
      obtain ⟨h1, h2, _⟩ := h
      exact Or.inr ⟨h2.symm, h1.symm⟩

theorem matchA2At_inv {p : Option Char} {s g0 : List Char} {gs : Groups}
    {r : List Char} (h : matchA2At p s = some (g0, gs, r)) :
    ∃ pref sp1 ds sp2 : List Char,
      (pref.map lc = str "lift" ∨ pref.map lc = str "lifting") ∧
      sp1.all isPySpace = true ∧ ds ≠ [] ∧ ds.all Char.isDigit = true ∧
      sp2.all isPySpace = true ∧
      ((∃ u, gs = [some ds, some u] ∧ g0 = pref ++ sp1 ++ ds ++ sp2 ++ u) ∨
        (gs = [some ds, none] ∧ g0 = pref ++ sp1 ++ ds ++ sp2)) := by
  unfold matchA2At at h
  cases h0 : ciSplit (str "lift") s with
  | none => rw [h0] at h; exact absurd h (by simp)
  | some mr0 =>
    obtain ⟨m0, r0⟩ := mr0
    rw [h0] at h; dsimp only at h
    have hm0 : m0.map lc = str "lift" := by
      have := (ciSplit_eq_some h0).2.2
      rwa [show (str "lift").map lc = str "lift" from rfl] at this
    cases h1 : ciSplit (str "ing") r0 with
    | some mri =>
      obtain ⟨mi, ri⟩ := mri
      rw [h1] at h; dsimp only at h
      have hmi : mi.map lc = str "ing" := by
        have := (ciSplit_eq_some h1).2.2
        rwa [show (str "ing").map lc = str "ing" from rfl] at this
      cases h2 : a2Tail (m0 ++ mi) ri with
      | some res =>
        obtain ⟨g0', gs', r'⟩ := res
        rw [h2] at h; dsimp only at h
        simp only [Option.some.injEq, Prod.mk.injEq] at h
        obtain ⟨ha, hb, hc⟩ := h
        subst ha; subst hb
        obtain ⟨sp1, ds, sp2, e1, e2, e3, e4, e5⟩ := a2Tail_inv h2
        refine ⟨m0 ++ mi, sp1, ds, sp2, Or.inr ?_, e1, e2, e3, e4, e5⟩
        rw [List.map_append, hm0, hmi]
        rfl
      | none =>
        rw [h2] at h; dsimp only at h
        obtain ⟨sp1, ds, sp2, e1, e2, e3, e4, e5⟩ := a2Tail_inv h
        exact ⟨m0, sp1, ds, sp2, Or.inl hm0, e1, e2, e3, e4, e5⟩
    | none =>
      rw [h1] at h; dsimp only at h
      obtain ⟨sp1, ds, sp2, e1, e2, e3, e4, e5⟩ := a2Tail_inv h
      exact ⟨m0, sp1, ds, sp2, Or.inl hm0, e1, e2, e3, e4, e5⟩

theorem replA2_no_unit (g0 ds : List Char) :
    replA2 g0 [some ds, none] =
      str "move materials up to " ++ ds ++ str "  using safe methods" := by
  have e : str "  using safe methods" = str " " ++ str " using safe methods" := rfl
  rw [e]
  simp [replA2, groupVal]

theorem pyStrip_ne_nil_of_mem {t : List Char} {c : Char} (hc : c ∈ t)
    (hns : isPySpace c = false) : pyStrip t ≠ [] := by
  intro h
  have := pyStrip_nil_all h
  rw [List.all_eq_true] at this
  rw [this c hc] at hns
  exact absurd hns (by decide)

theorem lc_l_not_space {c : Char} (h : lc c = 'l') : isPySpace c = false := by
  cases hs : isPySpace c
  · rfl
  · rcases isPySpace_elim hs with rfl | rfl | rfl | rfl | rfl | rfl <;>
      exact absurd h (by decide)

set_option maxRecDepth 40000 in
/-- Claim C10, refutation: on the input `"lift 5elf starter"` the clean
copy does not contain `move materials up to 5  using safe methods` — the
R-A2 rewrite does insert that phrase with an empty unit slot, but the
subsequent R-B3 pass matches `self starter` across the junction of the
inserted `...methods` and the remaining `elf starter`, consuming the
final `s` of `methods`. -/
theorem claim10_refuted :
    ¬ (str "move materials up to 5  using safe methods" <:+:
        (lint (str "lift 5elf starter")).2) := by decide

/-- Claim C10, amended: for every text and every R-A2 match whose
optional unit group is unmatched, the match consists of `lift`/`lifting`
plus whitespace, the digits, and trailing whitespace with no unit; the
flag built from it (match field equal to that span) is among the lint
flags; and the R-A2 substitution expands the unmatched group to the
empty string, so the output of the R-A2 `re.sub` pass over that text
contains `move materials up to {number}  using safe methods` with two
consecutive spaces. (In the full chain, the R-A2 pass runs on the
R-A1 output, and a later R-B3 rewrite can overlap the inserted phrase,
so the final clean copy need not retain it — see the refutation.) -/
theorem claim10_unitless (u : List Char) (e : Nat × List Char × Groups)
    (he : e ∈ finditer matchA2At u) (hu : e.2.2.getD 1 none = none) :
    ∃ pref sp1 ds sp2 : List Char,
      (pref.map lc = str "lift" ∨ pref.map lc = str "lifting") ∧
      sp1.all isPySpace = true ∧ ds ≠ [] ∧ ds.all Char.isDigit = true ∧
      sp2.all isPySpace = true ∧
      e.2.1 = pref ++ sp1 ++ ds ++ sp2 ∧ e.2.2 = [some ds, none] ∧
      replA2 e.2.1 e.2.2 =
        str "move materials up to " ++ ds ++ str "  using safe methods" ∧
      replA2 e.2.1 e.2.2 <:+: reSub matchA2At replA2 u ∧
      (⟨str "R-A2", str "warn", e.2.1, ruleA2.message, ruleA2.suggestion⟩ : Flag)
        ∈ (lint u).1 := by
  obtain ⟨p, v, r, hm⟩ := finditerAux_from_match _ _ _ _ _ he
  obtain ⟨pref, sp1, ds, sp2, h1, h2, h3, h4, h5, h6⟩ := matchA2At_inv hm
  rcases h6 with ⟨un, hgs, _⟩ | ⟨hgs, hg0⟩
  · rw [hgs] at hu; simp at hu
  · have hpref : pref ≠ [] := by
      intro hp
      rcases h1 with h1 | h1 <;> rw [hp] at h1 <;> exact absurd h1 (by decide)
    have hrepl : replA2 e.2.1 e.2.2 =
        str "move materials up to " ++ ds ++ str "  using safe methods" := by
      rw [hgs]; exact replA2_no_unit _ _
    refine ⟨pref, sp1, ds, sp2, h1, h2, h3, h4, h5, hg0, hgs, hrepl,
      finditer_repl_infix replA2 he, ?_⟩
    have hinf : e.2.1 <:+: u := finditer_infix matchA2At_sound he
    obtain ⟨c0, cpref, hcp⟩ : ∃ c0 cpref, pref = c0 :: cpref := by
      cases pref with
      | nil => exact absurd rfl hpref
      | cons a l => exact ⟨a, l, rfl⟩
    have hc0 : lc c0 = 'l' := by
      rcases h1 with h1 | h1 <;> rw [hcp] at h1 <;>
        simpa using congrArg (fun l => l.headD ' ') h1
    have hc0mem : c0 ∈ u := by
      apply hinf.subset
      rw [hg0, hcp]
      simp
    have hguard : pyStrip u ≠ [] :=
      pyStrip_ne_nil_of_mem hc0mem (lc_l_not_space hc0)
    simp only [lint, if_neg hguard]
    rw [lintFlags_eq]
    have : (⟨str "R-A2", str "warn", e.2.1, ruleA2.message,
        ruleA2.suggestion⟩ : Flag) ∈ ruleFlags ruleA2 u := by
      unfold ruleFlags
      exact List.mem_map_of_mem _ he
    simp only [List.mem_append]
    exact Or.inl (Or.inl (Or.inr this))

/-- Claim C10, witness: the unit-less behaviour evaluated at the concrete
input `"lift 5"` and its single R-A2 match. -/
theorem claim10_unitless_witness :
    (0, str "lift 5", [some (str "5"), none]) ∈
        finditer matchA2At (str "lift 5") ∧
      ((0, str "lift 5",
          ([some (str "5"), none] : Groups)).2.2.getD 1 none = none) ∧
      ∃ pref sp1 ds sp2 : List Char,
        (pref.map lc = str "lift" ∨ pref.map lc = str "lifting") ∧
        sp1.all isPySpace = true ∧ ds ≠ [] ∧ ds.all Char.isDigit = true ∧
        sp2.all isPySpace = true ∧
        (0, str "lift 5", ([some (str "5"), none] : Groups)).2.1 =
          pref ++ sp1 ++ ds ++ sp2 ∧
        (0, str "lift 5", ([some (str "5"), none] : Groups)).2.2 =
          [some ds, none] ∧
        replA2 (str "lift 5") [some (str "5"), none] =
          str "move materials up to " ++ ds ++ str "  using safe methods" ∧
        replA2 (str "lift 5") [some (str "5"), none] <:+:
          reSub matchA2At replA2 (str "lift 5") ∧
        (⟨str "R-A2", str "warn", str "lift 5", ruleA2.message,
          ruleA2.suggestion⟩ : Flag) ∈ (lint (str "lift 5")).1 :=
  ⟨by decide, by decide,
   claim10_unitless (str "lift 5") (0, str "lift 5", [some (str "5"), none])
     (by decide) (by decide)⟩

theorem ciStarts_of_ciSplit {p s m r : List Char}
    (h : ciSplit p s = some (m, r)) : ciStarts p s := by
  obtain ⟨e1, e2, e3⟩ := ciSplit_eq_some h
  constructor
  · rw [← e1, List.length_append, ← e2]; omega
  · rw [← e1, ← e2, List.take_left]; exact e3

theorem ciSplit_of_ciStarts {p s : List Char} (h : ciStarts p s) :
    ciSplit p s = some (s.take p.length, s.drop p.length) := by
  induction p generalizing s with
  | nil => simp [ciSplit]
  | cons a ps ih =>
    obtain ⟨hlen, hmap⟩ := h
    cases s with
    | nil => simp at hlen
    | cons c cs =>
      simp only [List.length_cons] at hlen
      rw [List.length_cons, List.take_succ_cons, List.map_cons,
        List.map_cons] at hmap
      injection hmap with h1 h2
      have := ih (s := cs) ⟨by omega, h2⟩
      simp [ciSplit, h1, this]

theorem matchD1At_eq_none_iff {p : Option Char} {s : List Char} :
    matchD1At p s = none ↔ ¬ ciStarts D1phrase s := by
  constructor
  · intro h hst
    unfold matchD1At at h
    rw [ciSplit_of_ciStarts hst] at h
    simp at h
  · intro hst
    cases hm : matchD1At p s with
    | none => rfl
    | some res =>
      obtain ⟨g0, gs, r⟩ := res
      unfold matchD1At at hm
      cases hc : ciSplit D1phrase s with
      | none => rw [hc] at hm; simp at hm
      | some mr => exact absurd (ciStarts_of_ciSplit hc) hst

theorem matchD1At_some_inv {p : Option Char} {s g0 : List Char} {gs : Groups}
    {r : List Char} (h : matchD1At p s = some (g0, gs, r)) :
    g0 ++ r = s ∧ g0.length = D1phrase.length ∧
      g0.map lc = D1phrase.map lc ∧ ciStarts D1phrase s := by
  unfold matchD1At at h
  cases hc : ciSplit D1phrase s with
  | none => rw [hc] at h; exact absurd h (by simp)
  | some mr =>
    obtain ⟨m, r'⟩ := mr
    rw [hc] at h
    simp only [Option.some.injEq, Prod.mk.injEq] at h
    obtain ⟨h1, _, h2⟩ := h
    subst h1; subst h2
    obtain ⟨e1, e2, e3⟩ := ciSplit_eq_some hc
    exact ⟨e1, e2, e3, ciStarts_of_ciSplit hc⟩

theorem ciCount_cons (pat : List Char) (c : Char) (cs : List Char) :
    ciCount pat (c :: cs) =
      (if ciStarts pat (c :: cs) then 1 else 0) + ciCount pat cs := rfl

theorem ciCount_le_append (pat : List Char) (pre rest : List Char) :
    ciCount pat rest ≤ ciCount pat (pre ++ rest) := by
  induction pre with
  | nil => simp
  | cons a l ih =>
    rw [List.cons_append, ciCount_cons]
    split <;> omega

theorem ciStarts_self_append (pat suf : List Char) :
    ciStarts pat (pat ++ suf) := by
  constructor
  · simp
  · rw [List.take_left]

theorem ciCount_pos_of_starts {t : List Char} (h : ciStarts D1phrase t) :
    1 ≤ ciCount D1phrase t := by
  cases t with
  | nil => exact absurd h (by decide)
  | cons c cs => rw [ciCount_cons, if_pos h]; omega

theorem D1_no_self_overlap :
    ∀ j, j < D1phrase.length → 1 ≤ j →
      ¬ ((D1phrase.map lc).drop j <+: D1phrase.map lc) := by decide

theorem D1_no_occ_inside {t : List Char} (h : ciStarts D1phrase t)
    {j : Nat} (hj1 : 1 ≤ j) (hj2 : j < D1phrase.length) :
    ¬ ciStarts D1phrase (t.drop j) := by
  intro hj
  apply D1_no_self_overlap j hj2 hj1
  obtain ⟨hlen, hmap⟩ := h
  obtain ⟨hlen', hmap'⟩ := hj
  have key : (D1phrase.map lc).drop j =
      (D1phrase.map lc).take (D1phrase.length - j) := by
    calc (D1phrase.map lc).drop j
        = ((t.take D1phrase.length).map lc).drop j := by rw [hmap]
      _ = ((t.take D1phrase.length).drop j).map lc :=
          (List.map_drop _ _ _).symm
      _ = ((t.drop j).take (D1phrase.length - j)).map lc := by
          rw [List.drop_take]
      _ = (((t.drop j).take D1phrase.length).take (D1phrase.length - j)).map lc := by
          rw [List.take_take, Nat.min_eq_left (Nat.sub_le _ _)]
      _ = (((t.drop j).take D1phrase.length).map lc).take (D1phrase.length - j) := by
          rw [List.map_take]
      _ = (D1phrase.map lc).take (D1phrase.length - j) := by rw [hmap']
  rw [key]
  exact List.take_prefix _ _

theorem ciCount_drop_of_no_occ :
    ∀ (k : Nat) (t : List Char),
      (∀ j, j < k → ¬ ciStarts D1phrase (t.drop j)) →
      ciCount D1phrase t = ciCount D1phrase (t.drop k) := by
  intro k
  induction k with
  | zero => intro t _; simp
  | succ m ih =>
    intro t hno
    cases t with
    | nil => simp
    | cons c cs =>
      rw [ciCount_cons, if_neg (by simpa using hno 0 (Nat.succ_pos m)),
        Nat.zero_add]
      have := ih cs (fun j hj => by simpa using hno (j + 1) (by omega))
      simpa using this

theorem finditerAux_D1_count :
    ∀ (fuel : Nat) (t : List Char) (pos : Nat) (prev : Option Char),
      t.length ≤ fuel →
      (finditerAux matchD1At fuel pos prev t).length = ciCount D1phrase t := by
  intro fuel
  induction fuel with
  | zero =>
    intro t pos prev hf
    have ht : t = [] := List.length_eq_zero.mp (Nat.le_zero.mp hf)
    subst ht
    rw [show ciCount D1phrase [] = 0 from by decide]
    simp [finditerAux]
  | succ n ih =>
    intro t pos prev hf
    cases t with
    | nil =>
      rw [show ciCount D1phrase [] = 0 from by decide]
      simp [finditerAux]
    | cons c cs =>
      cases hm : matchD1At prev (c :: cs) with
      | none =>
        rw [finditerAux, hm]
        have hns : ¬ ciStarts D1phrase (c :: cs) := matchD1At_eq_none_iff.mp hm
        rw [ciCount_cons, if_neg hns, Nat.zero_add]
        exact ih cs _ _ (by simp at hf ⊢; omega)
      | some res =>
        obtain ⟨g0, gs, rest⟩ := res
        rw [finditerAux, hm]
        obtain ⟨e1, e2, _, hst⟩ := matchD1At_some_inv hm
        have hrest : rest = cs.drop (D1phrase.length - 1) := by
          have : rest = ((c :: cs).drop g0.length) := by
            rw [← e1, List.drop_left]
          rw [this, e2]
          rw [show D1phrase.length = (D1phrase.length - 1) + 1 from by decide]
          rfl
        have hlrest : rest.length ≤ n := by
          have := congrArg List.length e1
          simp only [List.length_append, List.length_cons] at this hf
          have h40 : g0.length = 40 := by rw [e2]; decide
          omega
        have hcount : ciCount D1phrase cs =
            ciCount D1phrase (cs.drop (D1phrase.length - 1)) := by
          apply ciCount_drop_of_no_occ
          intro j hj
          have := D1_no_occ_inside hst (j := j + 1) (by omega) (by omega)
          simpa using this
        rw [List.length_cons, ih rest _ _ hlrest, hrest,
          ciCount_cons, if_pos hst, ← hcount]
        omega

theorem subAux_id_of_no_match {M : Matcher}
    (repl : List Char → Groups → List Char) :
    ∀ (fuel pos : Nat) (prev : Option Char) (s : List Char),
      finditerAux M fuel pos prev s = [] → subAux M repl fuel prev s = s := by
  intro fuel
  induction fuel with
  | zero => intro pos prev s _; rfl
  | succ n ih =>
    intro pos prev s hf
    cases s with
    | nil => rfl
    | cons c cs =>
      rw [finditerAux] at hf
      cases hm : M prev (c :: cs) with
      | some res =>
        obtain ⟨g0, gs, rest⟩ := res
        rw [hm] at hf
        simp at hf
      | none =>
        rw [hm] at hf
        rw [subAux, hm]
        rw [ih _ _ _ hf]

theorem lintFlags_countP_D1 (t : List Char) :
    (lintFlags t).countP (fun f => f.rule_id == str "R-D1") =
      (finditer matchD1At t).length := by
  have e1 : (str "R-A1" == str "R-D1") = false := by decide
  have e2 : (str "R-A2" == str "R-D1") = false := by decide
  have e3 : (str "R-B3" == str "R-D1") = false := by decide
  have e4 : (str "R-D1" == str "R-D1") = true := by decide
  rw [lintFlags_eq]
  simp [List.countP_append, ruleFlags, List.countP_map, Function.comp_def,
    Function.const, ruleA1, ruleA2, ruleB3, ruleD1, e1, e2, e3, e4]

theorem lc_w_not_space {c : Char} (h : lc c = 'w') : isPySpace c = false := by
  cases hs : isPySpace c
  · rfl
  · rcases isPySpace_elim hs with rfl | rfl | rfl | rfl | rfl | rfl <;>
      exact absurd h (by decide)

/-- Claim C7: for every input text containing the phrase
`with or without reasonable accommodation`, lint produces an R-D1 flag
(exactly one when the phrase occurs at exactly one position of the
text), and R-D1's matches cause no change to the clean copy: on any text
matched only by R-D1 (no R-A1/R-A2/R-B3 matches), the clean copy equals
the input. -/
theorem claim7_detect_only (pre suf : List Char) :
    (∃ f ∈ (lint (pre ++ D1phrase ++ suf)).1, f.rule_id = str "R-D1") ∧
      (ciCount D1phrase (pre ++ D1phrase ++ suf) = 1 →
        (lint (pre ++ D1phrase ++ suf)).1.countP
            (fun f => f.rule_id == str "R-D1") = 1) ∧
      ∀ t : List Char, finditer matchD1At t ≠ [] →
        finditer matchA1At t = [] → finditer matchA2At t = [] →
        finditer matchB3At t = [] → (lint t).2 = t := by
  have hw : 'w' ∈ pre ++ D1phrase ++ suf := by
    have e : D1phrase = 'w' :: str "ith or without reasonable accommodation" := rfl
    rw [e]
    simp
  have hguard : pyStrip (pre ++ D1phrase ++ suf) ≠ [] :=
    pyStrip_ne_nil_of_mem hw (lc_w_not_space rfl)
  have hcount : (lint (pre ++ D1phrase ++ suf)).1.countP
      (fun f => f.rule_id == str "R-D1") =
      ciCount D1phrase (pre ++ D1phrase ++ suf) := by
    simp only [lint, if_neg hguard]
    rw [lintFlags_countP_D1]
    exact finditerAux_D1_count _ _ _ _ (le_refl _)
  have hpos : 1 ≤ ciCount D1phrase (pre ++ D1phrase ++ suf) := by
    rw [List.append_assoc]
    exact le_trans (ciCount_pos_of_starts (ciStarts_self_append _ _))
      (ciCount_le_append _ _ _)
  refine ⟨?_, ?_, ?_⟩
  · have h0 : 0 < (lint (pre ++ D1phrase ++ suf)).1.countP
        (fun f => f.rule_id == str "R-D1") := by omega
    obtain ⟨f, hf, hp⟩ := List.countP_pos_iff.mp h0
    exact ⟨f, hf, by simpa using hp⟩
  · intro h1
    rw [hcount, h1]
  · intro t hd h1 h2 h3
    obtain ⟨e, he⟩ := List.exists_mem_of_ne_nil _ hd
    obtain ⟨p, u, r, hm⟩ := finditerAux_from_match _ _ _ _ _ he
    obtain ⟨_, hlen, hlc, _⟩ := matchD1At_some_inv hm
    obtain ⟨c0, g0t, hg0⟩ : ∃ c0 g0t, e.2.1 = c0 :: g0t := by
      cases hh : e.2.1 with
      | nil => rw [hh] at hlen; exact absurd hlen.symm (by decide)
      | cons a l => exact ⟨a, l, rfl⟩
    have hc0 : lc c0 = 'w' := by
      rw [hg0] at hlc
      simpa using congrArg (fun l => l.headD ' ') hlc
    have hc0mem : c0 ∈ t := by
      have hinfx := finditer_infix matchD1At_sound he
      apply hinfx.subset
      rw [hg0]
      simp
    have hgt : pyStrip t ≠ [] :=
      pyStrip_ne_nil_of_mem hc0mem (lc_w_not_space hc0)
    have hA1 : reSub matchA1At replA1 t = t :=
      subAux_id_of_no_match _ _ 0 _ _ h1
    have hA2 : reSub matchA2At replA2 t = t :=
      subAux_id_of_no_match _ _ 0 _ _ h2
    have hB3 : reSub matchB3At replB3 t = t :=
      subAux_id_of_no_match _ _ 0 _ _ h3
    simp only [lint, if_neg hgt]
    rw [lintClean, hA1, hA2, hB3]

/-- Claim C7, witness: evaluated with empty surroundings — the phrase
itself yields exactly one R-D1 flag and an unchanged clean copy. -/
theorem claim7_detect_only_witness :
    (∃ f ∈ (lint ([] ++ D1phrase ++ [])).1, f.rule_id = str "R-D1") ∧
      (lint ([] ++ D1phrase ++ [])).1.countP
          (fun f => f.rule_id == str "R-D1") = 1 ∧
      (lint D1phrase).2 = D1phrase :=
  ⟨(claim7_detect_only [] []).1,
   (claim7_detect_only [] []).2.1 (by decide),
   (claim7_detect_only [] []).2.2 D1phrase (by decide) (by decide)
     (by decide) (by decide)⟩

theorem char_isUpper_iff {c : Char} :
    c.isUpper = true ↔ 65 ≤ Char.toNat c ∧ Char.toNat c ≤ 90 := by
  unfold Char.isUpper
  simp only [ge_iff_le, Bool.and_eq_true, decide_eq_true_eq]
  rw [UInt32.le_def, UInt32.le_def, BitVec.le_def, BitVec.le_def]
  exact Iff.rfl

theorem char_isDigit_iff {c : Char} :
    c.isDigit = true ↔ 48 ≤ Char.toNat c ∧ Char.toNat c ≤ 57 := by
  unfold Char.isDigit
  simp only [ge_iff_le, Bool.and_eq_true, decide_eq_true_eq]
  rw [UInt32.le_def, UInt32.le_def, BitVec.le_def, BitVec.le_def]
  exact Iff.rfl

theorem isWordChar_of_lc {c x : Char} (h : lc c = x)
    (hx : isWordChar x = true) : isWordChar c = true := by
  unfold lc Char.toLower at h
  by_cases hn : Char.toNat c ≥ 65 ∧ Char.toNat c ≤ 90
  · have hu : c.isUpper = true := char_isUpper_iff.mpr ⟨hn.1, hn.2⟩
    simp [isWordChar, Char.isAlphanum, Char.isAlpha, hu]
  · rw [if_neg hn] at h
    subst h
    exact hx

theorem lc_eq_self_of_isDigit {c : Char} (h : c.isDigit = true) : lc c = c := by
  unfold lc Char.toLower
  rw [if_neg]
  intro hn
  rw [char_isDigit_iff] at h
  omega

theorem lc_ne_c_of_isDigit {c : Char} (h : c.isDigit = true) : lc c ≠ 'c' := by
  rw [lc_eq_self_of_isDigit h]
  intro hc
  subst hc
  exact absurd h (by decide)

theorem lastOr_eq_or (m : List Char) (p : Option Char) :
    lastOr m p = m.getLast?.or p := by
  unfold lastOr
  cases m.getLast? <;> rfl

theorem lastOr_append (x a : List Char) (p : Option Char) :
    lastOr (x ++ a) p = lastOr a (lastOr x p) := by
  rw [lastOr_eq_or, lastOr_eq_or, lastOr_eq_or, List.getLast?_append,
    Option.or_assoc]

theorem lastOr_cons (c : Char) (l : List Char) (p : Option Char) :
    lastOr (c :: l) p = lastOr l (some c) := by
  rw [show (c :: l) = [c] ++ l from rfl, lastOr_append]
  rfl

theorem matchA1At_none_of_word {p : Option Char} (h : wordOpt p = true)
    (s : List Char) : matchA1At p s = none := by
  simp [matchA1At, h]

theorem noA1C_nil (pw : Option Char) : NoA1C pw [] := by
  intro a b hab
  have hb : b = [] := by
    cases a <;> simp_all
  subst hb
  exact matchA1At_nil _

theorem noA1C_head {pw : Option Char} {s : List Char} (h : NoA1C pw s) :
    matchA1At pw s = none := by
  have := h [] s rfl
  simpa [lastOr] using this

theorem noA1C_tail {pw : Option Char} {c : Char} {s : List Char}
    (h : NoA1C pw (c :: s)) : NoA1C (some c) s := by
  intro a b hab
  have := h (c :: a) b (by rw [hab]; rfl)
  rwa [lastOr_cons] at this

theorem noA1C_shift {pw : Option Char} {x s : List Char}
    (h : NoA1C pw (x ++ s)) : NoA1C (lastOr x pw) s := by
  intro a b hab
  have := h (x ++ a) b (by rw [hab, List.append_assoc])
  rwa [lastOr_append] at this

theorem noA1C_cons {c : Char} {out : List Char} {pw : Option Char}
    (hhead : matchA1At pw (c :: out) = none)
    (htail : NoA1C (some c) out) : NoA1C pw (c :: out) := by
  intro a b hab
  cases a with
  | nil =>
    simp only [List.nil_append] at hab
    subst hab
    simpa [lastOr] using hhead
  | cons a0 a' =>
    simp only [List.cons_append, List.cons.injEq] at hab
    obtain ⟨h1, h2⟩ := hab
    subst h1
    rw [lastOr_cons]
    exact htail a' b h2

theorem noA1C_repl_append {r out : List Char} {pw : Option Char}
    (hblock : ReplBlock r) (hout : NoA1C (lastOr r pw) out) :
    NoA1C pw (r ++ out) := by
  intro a b hab
  rcases List.append_eq_append_iff.mp hab.symm with ⟨b0, hr, hb⟩ | ⟨a', ha, hb⟩
  · -- hr : r = a ++ b0, hb : b = b0 ++ out
    subst hb
    cases b0 with
    | nil =>
      simp only [List.append_nil] at hr
      have h0 := hout [] out rfl
      rw [← hr]
      exact h0
    | cons x xs => exact hblock pw a (x :: xs) out hr (by simp)
  · -- ha : a = r ++ a', hb : out = a' ++ b
    subst ha
    rw [lastOr_append]
    exact hout a' b hb

theorem ciSplit_eq_none_iff {p s : List Char} :
    ciSplit p s = none ↔ ¬ ciStarts p s := by
  constructor
  · intro h hst
    rw [ciSplit_of_ciStarts hst] at h
    exact absurd h (by simp)
  · intro hst
    cases hc : ciSplit p s with
    | none => rfl
    | some mr =>
      obtain ⟨m, r⟩ := mr
      exact absurd (ciStarts_of_ciSplit hc) hst

theorem ciStarts_take {pat s : List Char} {k : Nat} (hk : pat.length ≤ k) :
    ciStarts pat (s.take k) ↔ ciStarts pat s := by
  unfold ciStarts
  rw [List.take_take, Nat.min_eq_left hk, List.length_take]
  constructor
  · rintro ⟨h1, h2⟩
    exact ⟨le_trans h1 (Nat.min_le_right _ _), h2⟩
  · rintro ⟨h1, h2⟩
    exact ⟨le_min hk h1, h2⟩

theorem ciStarts_append_left {pat x y : List Char} (hx : pat.length ≤ x.length) :
    ciStarts pat (x ++ y) ↔ ciStarts pat x := by
  unfold ciStarts
  rw [List.take_append_of_le_length hx, List.length_append]
  constructor
  · rintro ⟨_, h2⟩
    exact ⟨hx, h2⟩
  · rintro ⟨h1, h2⟩
    exact ⟨by omega, h2⟩

theorem wordHead_take {l : List Char} {k : Nat} (hk : 1 ≤ k) :
    wordHead (l.take k) = wordHead l := by
  cases l with
  | nil => simp
  | cons c cs =>
    cases k with
    | zero => omega
    | succ n => rfl

theorem wordHead_append_left {x y : List Char} (hx : x ≠ []) :
    wordHead (x ++ y) = wordHead x := by
  cases x with
  | nil => exact absurd rfl hx
  | cons c cs => rfl

theorem matchA1At_none_iff {p : Option Char} {s : List Char} :
    matchA1At p s = none ↔
      wordOpt p = true ∨ ¬ ciStarts (str "climb") s ∨
        (ciStarts (str "climb") s ∧
          ((ciStarts (str "ing") (s.drop 5) ∧ wordHead (s.drop 8) = true ∧
              wordHead (s.drop 5) = true) ∨
            (¬ ciStarts (str "ing") (s.drop 5) ∧ wordHead (s.drop 5) = true))) := by
  by_cases hw : wordOpt p
  · simp [matchA1At_none_of_word hw, hw]
  · by_cases hcl : ciStarts (str "climb") s
    · have hclsplit := ciSplit_of_ciStarts (p := str "climb") hcl
      by_cases hing : ciStarts (str "ing") (s.drop 5)
      · have hingsplit := ciSplit_of_ciStarts (p := str "ing") hing
        have hdd : (s.drop 5).drop 3 = s.drop 8 := by
          rw [List.drop_drop]
        unfold matchA1At
        rw [hclsplit]
        dsimp only
        rw [show (str "climb").length = 5 from rfl] at *
        rw [hingsplit]
        dsimp only
        rw [show (str "ing").length = 3 from rfl, hdd]
        by_cases h8 : wordHead (s.drop 8) <;> by_cases h5 : wordHead (s.drop 5) <;>
          simp [h8, h5, hw, hcl, hing]
      · have hingnone := ciSplit_eq_none_iff.mpr hing
        unfold matchA1At
        rw [hclsplit]
        dsimp only
        rw [show (str "climb").length = 5 from rfl] at *
        rw [hingnone]
        by_cases h5 : wordHead (s.drop 5) <;> simp [h5, hw, hcl, hing]
    · unfold matchA1At
      rw [ciSplit_eq_none_iff.mpr hcl]
      simp [hw, hcl]

theorem matchA1At_none_take9 {p : Option Char} {s : List Char} :
    matchA1At p (s.take 9) = none ↔ matchA1At p s = none := by
  rw [matchA1At_none_iff, matchA1At_none_iff]
  have hcl : ciStarts (str "climb") (s.take 9) ↔ ciStarts (str "climb") s :=
    ciStarts_take (by decide)
  have hd5 : (s.take 9).drop 5 = (s.drop 5).take 4 := by
    rw [List.drop_take]
  have hd8 : (s.take 9).drop 8 = (s.drop 8).take 1 := by
    rw [List.drop_take]
  have hing : ciStarts (str "ing") ((s.take 9).drop 5) ↔
      ciStarts (str "ing") (s.drop 5) := by
    rw [hd5]
    exact ciStarts_take (by decide)
  have hw5 : wordHead ((s.take 9).drop 5) = wordHead (s.drop 5) := by
    rw [hd5]
    exact wordHead_take (by omega)
  have hw8 : wordHead ((s.take 9).drop 8) = wordHead (s.drop 8) := by
    rw [hd8]
    exact wordHead_take (by omega)
  rw [hcl, hing, hw5, hw8]

theorem matchA1At_none_of_take9_eq {p : Option Char} {x y : List Char}
    (hxy : x.take 9 = y.take 9) (h : matchA1At p x = none) :
    matchA1At p y = none := by
  rw [← matchA1At_none_take9] at h ⊢
  rwa [hxy] at h

theorem matchA1At_none_of_lcmismatch {p : Option Char} {b y : List Char}
    (h : ¬ ((b.take 5).map lc <+: (str "climb").map lc)) :
    matchA1At p (b ++ y) = none := by
  rw [matchA1At_none_iff]
  right; left
  rintro ⟨hlen, hmap⟩
  rw [show (str "climb").length = 5 from rfl] at hmap
  apply h
  rw [List.take_append_eq_append_take, List.map_append] at hmap
  rw [← hmap]
  exact List.prefix_append _ _

theorem replBlock_of_check {r : List Char}
    (h : ∀ i, i < r.length →
      ¬ (((r.drop i).take 5).map lc <+: (str "climb").map lc)) :
    ReplBlock r := by
  intro pw a b y hsplit hb
  apply matchA1At_none_of_lcmismatch
  have hba : b = r.drop a.length := by rw [hsplit, List.drop_left]
  have hlen : a.length < r.length := by
    rw [hsplit, List.length_append]
    cases b with
    | nil => exact absurd rfl hb
    | cons x xs => exact Nat.lt_add_of_pos_right (by simp)
  rw [hba]
  exact h a.length hlen

theorem replBlock_of_noC {r : List Char} (h : ∀ c ∈ r, lc c ≠ 'c') :
    ReplBlock r := by
  intro pw a b y hsplit hb
  apply matchA1At_none_of_lcmismatch
  cases b with
  | nil => exact absurd rfl hb
  | cons x xs =>
    intro hpre
    have hx : lc x = 'c' := by
      rw [show ((x :: xs).take 5) = x :: xs.take 4 from rfl, List.map_cons] at hpre
      rw [show (str "climb").map lc = 'c' :: (str "limb").map lc from rfl] at hpre
      exact (List.cons_prefix_cons.mp hpre).1
    have hxr : x ∈ r := by rw [hsplit]; simp
    exact h x hxr hx

theorem ciStarts_append_head {pat x : List Char} {g : Char} {y : List Char}
    (h : ciStarts pat (x ++ g :: y)) (hx : x.length < pat.length) :
    lc g = ((pat.map lc).drop x.length).headD ' ' := by
  obtain ⟨hlen, hmap⟩ := h
  rw [List.take_append_eq_append_take,
    List.take_of_length_le (le_of_lt hx), List.map_append] at hmap
  have hd := congrArg (fun l => (List.headD (l.drop x.length) ' ')) hmap
  dsimp only at hd
  rw [List.drop_left' (by rw [List.length_map])] at hd
  rw [← hd]
  have hpos : 1 ≤ pat.length - x.length := by omega
  obtain ⟨m, hm⟩ : ∃ m, pat.length - x.length = m + 1 :=
    ⟨pat.length - x.length - 1, by omega⟩
  rw [hm, List.take_succ_cons, List.map_cons]
  rfl

theorem junction_head {r g0 kept rest Z : List Char} {p : Option Char}
    (hR : ReplOK r) (hS : SpanOK g0) (hk : 1 ≤ kept.length)
    (hin : matchA1At p (kept ++ (g0 ++ rest)) = none) :
    matchA1At p (kept ++ (r ++ Z)) = none := by
  have hr4 := hR.len4
  obtain ⟨r0, rtl, hr0⟩ : ∃ r0 rtl, r = r0 :: rtl := by
    cases r with
    | nil => simp at hr4
    | cons a l => exact ⟨a, l, rfl⟩
  have hrne : r ≠ [] := by rw [hr0]; simp
  by_cases hw : wordOpt p = true
  · exact matchA1At_none_of_word hw _
  · by_cases hk9 : 9 ≤ kept.length
    · refine matchA1At_none_of_take9_eq ?_ hin
      rw [List.take_append_of_le_length hk9,
        List.take_append_of_le_length hk9]
    · push_neg at hk9
      rw [matchA1At_none_iff]
      by_cases hcl : ciStarts (str "climb") (kept ++ (r ++ Z))
      · right; right
        refine ⟨hcl, ?_⟩
        by_cases hk5 : kept.length ≤ 4
        · -- the climb span would cross into the replacement: impossible
          exfalso
          obtain ⟨hlen, hmap⟩ := hcl
          rw [show (str "climb").length = 5 from rfl] at hlen hmap
          rw [List.take_append_eq_append_take,
            List.take_of_length_le (by omega),
            List.take_append_of_le_length (by omega),
            List.map_append] at hmap
          have hdrop := congrArg (fun l => l.drop kept.length) hmap
          dsimp only at hdrop
          rw [List.drop_left' (by rw [List.length_map])] at hdrop
          refine hR.noClimbCont kept.length hk (by omega) ⟨?_, ?_⟩
          · rw [List.length_drop, show (str "climb").length = 5 from rfl]
            omega
          · rw [List.length_drop, show (str "climb").length = 5 from rfl,
              List.map_drop, ← hdrop]
        · -- 5 ≤ kept.length ≤ 8 : the climb span lies inside the kept text
          push_neg at hk5
          have hcl_in : ciStarts (str "climb") (kept ++ (g0 ++ rest)) := by
            obtain ⟨hlen, hmap⟩ := hcl
            rw [show (str "climb").length = 5 from rfl] at hlen hmap
            refine ⟨by rw [show (str "climb").length = 5 from rfl,
              List.length_append]; omega, ?_⟩
            rw [show (str "climb").length = 5 from rfl] at *
            rw [List.take_append_of_le_length (by omega)] at hmap ⊢
            exact hmap
          rw [matchA1At_none_iff] at hin
          rcases hin with h | h | h
          · exact absurd h hw
          · exact absurd hcl_in h
          obtain ⟨-, hbranch⟩ := h
          have hout5 : (kept ++ (r ++ Z)).drop 5 = kept.drop 5 ++ (r ++ Z) :=
            List.drop_append_of_le_length (by omega)
          have hin5 : (kept ++ (g0 ++ rest)).drop 5 = kept.drop 5 ++ (g0 ++ rest) :=
            List.drop_append_of_le_length (by omega)
          have hkdlen : (kept.drop 5).length = kept.length - 5 :=
            List.length_drop _ _
          obtain ⟨g, gtl, hg, hgw, hgn, hgg⟩ := hS.ex
          cases hkd : kept.drop 5 with
          | nil =>
            -- kept.length = 5
            have hing : ¬ ciStarts (str "ing") ((kept ++ (r ++ Z)).drop 5) := by
              rw [hout5, hkd, List.nil_append]
              rw [ciStarts_append_left
                (by rw [show (str "ing").length = 3 from rfl]; omega)]
              exact hR.noIng
            refine Or.inr ⟨hing, ?_⟩
            rw [hout5, hkd, List.nil_append, wordHead_append_left hrne]
            exact hR.headWord
          | cons d0 kd' =>
            rw [hkd] at hkdlen
            have hkdl : kd'.length + 1 = kept.length - 5 := by
              simpa using hkdlen
            by_cases hkd3 : kd'.length + 1 ≤ 2
            · -- kept.length ∈ {6, 7}: an `ing` continuation would need the
              -- replacement (or the matched span) to start with `n` or `g`
              have hingout : ¬ ciStarts (str "ing") ((kept ++ (r ++ Z)).drop 5) := by
                rw [hout5, hkd]
                intro hst
                have := ciStarts_append_head (x := d0 :: kd') (g := r0)
                  (y := rtl ++ Z) (by rw [hr0] at hst; simpa using hst)
                  (by rw [show (str "ing").length = 3 from rfl]; simp; omega)
                have hng := hR.headNotNG r0 rtl hr0
                rcases (by omega : kd'.length = 0 ∨ kd'.length = 1) with h0 | h0
                · rw [List.length_cons, h0] at this
                  exact hng.1 (by simpa using this)
                · rw [List.length_cons, h0] at this
                  exact hng.2 (by simpa using this)
              have hingin : ¬ ciStarts (str "ing") ((kept ++ (g0 ++ rest)).drop 5) := by
                rw [hin5, hkd]
                intro hst
                have := ciStarts_append_head (x := d0 :: kd') (g := g)
                  (y := gtl ++ rest) (by rw [hg] at hst; simpa using hst)
                  (by rw [show (str "ing").length = 3 from rfl]; simp; omega)
                rcases (by omega : kd'.length = 0 ∨ kd'.length = 1) with h0 | h0
                · rw [List.length_cons, h0] at this
                  exact hgn (by simpa using this)
                · rw [List.length_cons, h0] at this
                  exact hgg (by simpa using this)
              have hwh : wordHead ((kept ++ (g0 ++ rest)).drop 5) = true := by
                rcases hbranch with ⟨hi, _, _⟩ | ⟨_, hw5⟩
                · exact absurd hi hingin
                · exact hw5
              refine Or.inr ⟨hingout, ?_⟩
              rw [hout5, hkd, wordHead_append_left (by simp)]
              rw [hin5, hkd, wordHead_append_left (by simp)] at hwh
              exact hwh
            · -- kept.length = 8
              have hkd3' : kd'.length + 1 = 3 := by omega
              have hk8 : kept.length = 8 := by omega
              have hingiff : ∀ X : List Char,
                  ciStarts (str "ing") ((d0 :: kd') ++ X) ↔
                    ciStarts (str "ing") (d0 :: kd') := fun X =>
                ciStarts_append_left
                  (by rw [show (str "ing").length = 3 from rfl]; simp; omega)
              by_cases hing : ciStarts (str "ing") (d0 :: kd')
              · -- the span `climbing` ends exactly at the junction
                have hd0 : lc d0 = 'i' := by
                  have := @ciStarts_append_head (str "ing") [] d0 kd'
                    (by simpa using hing) (by decide)
                  simpa using this
                refine Or.inl ⟨?_, ?_, ?_⟩
                · rw [hout5, hkd, hingiff]
                  exact hing
                · have hout8 : (kept ++ (r ++ Z)).drop 8 = r ++ Z := by
                    rw [List.drop_append_of_le_length (by omega),
                      List.drop_eq_nil_of_le (by omega), List.nil_append]
                  rw [hout8, wordHead_append_left hrne]
                  exact hR.headWord
                · rw [hout5, hkd, wordHead_append_left (by simp)]
                  show isWordChar d0 = true
                  exact isWordChar_of_lc hd0 (by decide)
              · have hingin : ¬ ciStarts (str "ing") ((kept ++ (g0 ++ rest)).drop 5) := by
                  rw [hin5, hkd, hingiff]
                  exact hing
                have hwh : wordHead ((kept ++ (g0 ++ rest)).drop 5) = true := by
                  rcases hbranch with ⟨hi, _, _⟩ | ⟨_, hw5⟩
                  · exact absurd hi hingin
                  · exact hw5
                refine Or.inr ⟨?_, ?_⟩
                · rw [hout5, hkd, hingiff]
                  exact hing
                · rw [hout5, hkd, wordHead_append_left (by simp)]
                  rw [hin5, hkd, wordHead_append_left (by simp)] at hwh
                  exact hwh
      · right; left
        exact hcl

theorem chunks_subAux {M : Matcher} (repl : List Char → Groups → List Char)
    (hM : MSound M) (hMp : MPos M) :
    ∀ (fuel : Nat) (prev : Option Char) (s : List Char), s.length ≤ fuel →
      Chunks M repl prev s (subAux M repl fuel prev s) := by
  intro fuel
  induction fuel with
  | zero =>
    intro prev s hf
    have hs : s = [] := List.length_eq_zero.mp (Nat.le_zero.mp hf)
    subst hs
    exact Chunks.done prev
  | succ n ih =>
    intro prev s hf
    cases s with
    | nil => exact Chunks.done prev
    | cons c cs =>
      cases hm : M prev (c :: cs) with
      | none =>
        rw [subAux, hm]
        exact Chunks.keep prev c cs _ hm
          (ih (some c) cs (by simp only [List.length_cons] at hf; omega))
      | some res =>
        obtain ⟨g0, gs, rest⟩ := res
        rw [subAux, hm]
        refine Chunks.rep prev c cs g0 gs rest _ hm
          (ih (lastOr g0 prev) rest ?_)
        have he := hM _ _ _ _ _ hm
        have hp := hMp _ _ _ _ _ hm
        have hlen := congrArg List.length he
        simp only [List.length_append, List.length_cons] at hlen hf
        have hg1 : 1 ≤ g0.length := List.length_pos.mpr hp
        omega

theorem chunks_decomp {M : Matcher} {repl : List Char → Groups → List Char}
    (hM : MSound M) :
    ∀ {prev : Option Char} {s out : List Char}, Chunks M repl prev s out →
      out = s ∨
        ∃ kept g0 gs rest out₂,
          s = kept ++ (g0 ++ rest) ∧ out = kept ++ (repl g0 gs ++ out₂) ∧
          M (lastOr kept prev) (g0 ++ rest) = some (g0, gs, rest) := by
  intro prev s out h
  induction h with
  | done prev => exact Or.inl rfl
  | keep prev c cs out hm hch ih =>
    rcases ih with rfl | ⟨kept, g0, gs, rest, out₂, h1, h2, h3⟩
    · exact Or.inl rfl
    · right
      refine ⟨c :: kept, g0, gs, rest, out₂, ?_, ?_, ?_⟩
      · rw [h1]; rfl
      · rw [h2]; rfl
      · rw [lastOr_cons]
        exact h3
  | rep prev c cs g0 gs rest out hm hch ih =>
    right
    have he := hM _ _ _ _ _ hm
    refine ⟨[], g0, gs, rest, out, ?_, rfl, ?_⟩
    · rw [List.nil_append]
      exact he.symm
    · rw [he]
      exact hm

theorem head_none_of_chunks {M : Matcher} {repl : List Char → Groups → List Char}
    (hM : MSound M)
    (hOK : ∀ (p : Option Char) (u g0 : List Char) (gs : Groups) (r : List Char),
      M p u = some (g0, gs, r) → ReplOK (repl g0 gs) ∧ SpanOK g0)
    {prev : Option Char} {s out : List Char} (h : Chunks M repl prev s out)
    (hhead : matchA1At prev s = none) : matchA1At prev out = none := by
  rcases chunks_decomp hM h with rfl | ⟨kept, g0, gs, rest, out₂, h1, h2, h3⟩
  · exact hhead
  · obtain ⟨hR, hS⟩ := hOK _ _ _ _ _ h3
    subst h1
    subst h2
    cases kept with
    | nil =>
      have hne : repl g0 gs ≠ [] := by
        intro hnil
        have h4 := hR.len4
        rw [hnil] at h4
        simp at h4
      have hb := hR.block prev [] (repl g0 gs) out₂ rfl hne
      simp only [List.nil_append]
      exact hb
    | cons k0 ks =>
      exact junction_head hR hS (by simp) hhead

theorem noA1C_chunks {M : Matcher} {repl : List Char → Groups → List Char}
    (hM : MSound M)
    (hOK : ∀ (p : Option Char) (u g0 : List Char) (gs : Groups) (r : List Char),
      M p u = some (g0, gs, r) → ReplOK (repl g0 gs) ∧ SpanOK g0) :
    ∀ {prevI : Option Char} {s out : List Char}, Chunks M repl prevI s out →
      ∀ prevO : Option Char, prevO = prevI ∨ wordOpt prevO = true →
        NoA1C prevI s → NoA1C prevO out := by
  intro prevI s out h
  induction h with
  | done prev =>
    intro prevO _ _
    exact noA1C_nil prevO
  | keep prev c cs out hm hch ih =>
    intro prevO hctx hin
    have hder := @Chunks.keep M repl prev c cs out hm hch
    apply noA1C_cons
    · rcases hctx with rfl | hword
      · exact head_none_of_chunks hM hOK hder (noA1C_head hin)
      · exact matchA1At_none_of_word hword _
    · exact ih (some c) (Or.inl rfl) (noA1C_tail hin)
  | rep prev c cs g0 gs rest out hm hch ih =>
    intro prevO hctx hin
    obtain ⟨hR, hS⟩ := hOK _ _ _ _ _ hm
    apply noA1C_repl_append hR.block
    apply ih
    · right
      obtain ⟨d, hd⟩ : ∃ d, (repl g0 gs).getLast? = some d := by
        cases hlast : (repl g0 gs).getLast? with
        | some d => exact ⟨d, rfl⟩
        | none =>
          have h4 := hR.len4
          rw [List.getLast?_eq_none_iff.mp hlast] at h4
          simp at h4
      rw [lastOr_eq_or, hd]
      exact hR.lastWord d hd
    · have he := hM _ _ _ _ _ hm
      exact noA1C_shift (x := g0) (s := rest) (by rw [he]; exact hin)

theorem noA1C_chunks_A1
    (hOK : ∀ (p : Option Char) (u g0 : List Char) (gs : Groups) (r : List Char),
      matchA1At p u = some (g0, gs, r) → ReplOK (replA1 g0 gs) ∧ SpanOK g0) :
    ∀ {prevI : Option Char} {s out : List Char},
      Chunks matchA1At replA1 prevI s out →
      ∀ prevO : Option Char, prevO = prevI ∨ wordOpt prevO = true →
        NoA1C prevO out := by
  intro prevI s out h
  induction h with
  | done prev =>
    intro prevO _
    exact noA1C_nil prevO
  | keep prev c cs out hm hch ih =>
    intro prevO hctx
    have hder := @Chunks.keep matchA1At replA1 prev c cs out hm hch
    apply noA1C_cons
    · rcases hctx with rfl | hword
      · exact head_none_of_chunks matchA1At_sound hOK hder hm
      · exact matchA1At_none_of_word hword _
    · exact ih (some c) (Or.inl rfl)
  | rep prev c cs g0 gs rest out hm hch ih =>
    intro prevO hctx
    obtain ⟨hR, hS⟩ := hOK _ _ _ _ _ hm
    apply noA1C_repl_append hR.block
    apply ih
    right
    obtain ⟨d, hd⟩ : ∃ d, (replA1 g0 gs).getLast? = some d := by
      cases hlast : (replA1 g0 gs).getLast? with
      | some d => exact ⟨d, rfl⟩
      | none =>
        have h4 := hR.len4
        rw [List.getLast?_eq_none_iff.mp hlast] at h4
        simp at h4
    rw [lastOr_eq_or, hd]
    exact hR.lastWord d hd

theorem finditerAux_nil_of_noA1C :
    ∀ (fuel pos : Nat) (a b : List Char),
      (∀ a' b', a ++ b = a' ++ b' → matchA1At (lastOr a' none) b' = none) →
      finditerAux matchA1At fuel pos (lastOr a none) b = [] := by
  intro fuel
  induction fuel with
  | zero => intro pos a b _; rfl
  | succ n ih =>
    intro pos a b h
    cases b with
    | nil => rfl
    | cons c cs =>
      have hm : matchA1At (lastOr a none) (c :: cs) = none := h a (c :: cs) rfl
      rw [finditerAux, hm]
      have := ih (pos + 1) (a ++ [c]) cs
        (fun a' b' hab => h a' b' (by rw [List.append_cons]; exact hab))
      rw [lastOr_append] at this
      exact this

theorem finditer_nil_of_noA1C {s : List Char} (h : NoA1C none s) :
    finditer matchA1At s = [] := by
  have := finditerAux_nil_of_noA1C s.length 0 [] s
    (fun a' b' hab => h a' b' (by simpa using hab))
  exact this

theorem ciSplit_head_lc {p0 : Char} {ps s m r : List Char}
    (h : ciSplit (p0 :: ps) s = some (m, r)) :
    ∃ c tl, m = c :: tl ∧ lc c = lc p0 := by
  obtain ⟨_, e2, e3⟩ := ciSplit_eq_some h
  cases m with
  | nil => simp at e2
  | cons c tl =>
    refine ⟨c, tl, rfl, ?_⟩
    simp only [List.map_cons, List.cons.injEq] at e3
    exact e3.1

theorem ciSplitDash_head_lc {p0 : Char} {p1s p2 s m r : List Char}
    (h : ciSplitDash (p0 :: p1s) p2 s = some (m, r)) :
    ∃ c tl, m = c :: tl ∧ lc c = lc p0 := by
  unfold ciSplitDash at h
  cases h1 : ciSplit (p0 :: p1s) s with
  | none => rw [h1] at h; exact absurd h (by simp)
  | some mr1 =>
    obtain ⟨m1, r1⟩ := mr1
    rw [h1] at h
    obtain ⟨c, tl, hm1, hc⟩ := ciSplit_head_lc h1
    cases r1 with
    | nil => exact absurd h (by simp)
    | cons d r2 =>
      by_cases hd : d = '-' || d = ' '
      · simp only [hd, if_true] at h
        cases h2 : ciSplit p2 r2 with
        | none => rw [h2] at h; exact absurd h (by simp)
        | some mr2 =>
          obtain ⟨m2, r3⟩ := mr2
          rw [h2] at h
          simp only [Option.some.injEq, Prod.mk.injEq] at h
          obtain ⟨hm, _⟩ := h
          refine ⟨c, tl ++ d :: m2, ?_, hc⟩
          rw [← hm, hm1]
          simp
      · simp [hd] at h

theorem matchUnitAt_lc {s u r : List Char} (h : matchUnitAt s = some (u, r)) :
    u.map lc = (str "lb").map lc ∨ u.map lc = (str "lbs").map lc ∨
      u.map lc = (str "pounds").map lc ∨ u.map lc = (str "kg").map lc := by
  unfold matchUnitAt at h
  cases h1 : ciSplit (str "lb") s with
  | some mr => rw [h1] at h; cases mr; simp at h; obtain ⟨hu, _⟩ := h
               subst hu; exact Or.inl (ciSplit_eq_some h1).2.2
  | none =>
    rw [h1] at h
    cases h2 : ciSplit (str "lbs") s with
    | some mr => rw [h2] at h; cases mr; simp at h; obtain ⟨hu, _⟩ := h
                 subst hu; exact Or.inr (Or.inl (ciSplit_eq_some h2).2.2)
    | none =>
      rw [h2] at h
      cases h3 : ciSplit (str "pounds") s with
      | some mr => rw [h3] at h; cases mr; simp at h; obtain ⟨hu, _⟩ := h
                   subst hu; exact Or.inr (Or.inr (Or.inl (ciSplit_eq_some h3).2.2))
      | none =>
        rw [h3] at h
        exact Or.inr (Or.inr (Or.inr (ciSplit_eq_some h).2.2))

theorem a2Tail_noC {pref rest g0 : List Char} {gs : Groups} {r : List Char}
    (h : a2Tail pref rest = some (g0, gs, r)) :
    (∀ c ∈ groupVal gs 0, lc c ≠ 'c') ∧ ∀ c ∈ groupVal gs 1, lc c ≠ 'c' := by
  unfold a2Tail at h
  by_cases hds : (rest.dropWhile isPySpace).takeWhile Char.isDigit = []
  · simp only [hds, if_pos rfl] at h
    exact absurd h (by simp)
  · simp only [if_neg hds] at h
    cases hu : matchUnitAt (((rest.dropWhile isPySpace).dropWhile Char.isDigit).dropWhile isPySpace) with
    | some ur =>
      obtain ⟨u, r4⟩ := ur
      rw [hu] at h
      simp only [Option.some.injEq, Prod.mk.injEq] at h
      obtain ⟨_, h2, _⟩ := h
      rw [← h2]
      constructor
      · intro c hc
        simp only [groupVal, List.getD_cons_zero, Option.getD_some] at hc
        exact lc_ne_c_of_isDigit (List.mem_takeWhile_imp hc)
      · intro c hc
        simp only [groupVal, List.getD_cons_succ, List.getD_cons_zero,
          Option.getD_some] at hc
        have hmem : lc c ∈ u.map lc := List.mem_map_of_mem lc hc
        rcases matchUnitAt_lc hu with hl | hl | hl | hl <;> rw [hl] at hmem
        · exact (by decide : ∀ x ∈ (str "lb").map lc, x ≠ 'c') _ hmem
        · exact (by decide : ∀ x ∈ (str "lbs").map lc, x ≠ 'c') _ hmem
        · exact (by decide : ∀ x ∈ (str "pounds").map lc, x ≠ 'c') _ hmem
        · exact (by decide : ∀ x ∈ (str "kg").map lc, x ≠ 'c') _ hmem
    | none =>
      rw [hu] at h
      simp only [Option.some.injEq, Prod.mk.injEq] at h
      obtain ⟨_, h2, _⟩ := h
      rw [← h2]
      constructor
      · intro c hc
        simp only [groupVal, List.getD_cons_zero, Option.getD_some] at hc
        exact lc_ne_c_of_isDigit (List.mem_takeWhile_imp hc)
      · intro c hc
        simp [groupVal] at hc

theorem matchA1At_span {p : Option Char} {u g0 : List Char} {gs : Groups}
    {r : List Char} (h : matchA1At p u = some (g0, gs, r)) : SpanOK g0 := by
  unfold matchA1At at h
  by_cases hw : wordOpt p
  · simp [hw] at h
  · simp only [hw, Bool.false_eq_true, if_false] at h
    cases h1 : ciSplit (str "climb") u with
    | none => rw [h1] at h; exact absurd h (by simp)
    | some mr1 =>
      obtain ⟨m1, r1⟩ := mr1
      rw [h1] at h; dsimp only at h
      obtain ⟨c0, tl, hm1, hc0⟩ := ciSplit_head_lc
        (show ciSplit ('c' :: str "limb") u = some (m1, r1) from h1)
      have hc : lc c0 = 'c' := by rw [hc0]; rfl
      have hword : isWordChar c0 = true := isWordChar_of_lc hc (by decide)
      have hspan1 : SpanOK m1 :=
        ⟨⟨c0, tl, hm1, hword, by rw [hc]; decide, by rw [hc]; decide⟩⟩
      cases h2 : ciSplit (str "ing") r1 with
      | some mr2 =>
        obtain ⟨m2, r2⟩ := mr2
        rw [h2] at h; dsimp only at h
        by_cases hw2 : wordHead r2
        · simp only [hw2, if_true] at h
          by_cases hw1 : wordHead r1
          · simp [hw1] at h
          · simp only [hw1, Bool.false_eq_true, if_false,
              Option.some.injEq, Prod.mk.injEq] at h
            obtain ⟨hg, _, _⟩ := h
            rw [← hg]
            exact hspan1
        · simp only [hw2, Bool.false_eq_true, if_false,
            Option.some.injEq, Prod.mk.injEq] at h
          obtain ⟨hg, _, _⟩ := h
          rw [← hg]
          refine ⟨⟨c0, tl ++ m2, ?_, hword, by rw [hc]; decide, by rw [hc]; decide⟩⟩
          rw [hm1]
          simp
      | none =>
        rw [h2] at h; dsimp only at h
        by_cases hw1 : wordHead r1
        · simp [hw1] at h
        · simp only [hw1, Bool.false_eq_true, if_false,
            Option.some.injEq, Prod.mk.injEq] at h
          obtain ⟨hg, _, _⟩ := h
          rw [← hg]
          exact hspan1

theorem matchA2At_span {p : Option Char} {u g0 : List Char} {gs : Groups}
    {r : List Char} (h : matchA2At p u = some (g0, gs, r)) : SpanOK g0 := by
  obtain ⟨pref, sp1, ds, sp2, h1, _, _, _, _, h6⟩ := matchA2At_inv h
  obtain ⟨c, tl, hpc, hc⟩ : ∃ c tl, pref = c :: tl ∧ lc c = 'l' := by
    cases pref with
    | nil =>
      rcases h1 with h1 | h1 <;> exact absurd h1 (by decide)
    | cons c tl =>
      refine ⟨c, tl, rfl, ?_⟩
      rcases h1 with h1 | h1
      · rw [List.map_cons, show str "lift" = 'l' :: str "ift" from rfl,
          List.cons.injEq] at h1
        exact h1.1
      · rw [List.map_cons, show str "lifting" = 'l' :: str "ifting" from rfl,
          List.cons.injEq] at h1
        exact h1.1
  have hword : isWordChar c = true := isWordChar_of_lc hc (by decide)
  rcases h6 with ⟨u', _, hg0⟩ | ⟨_, hg0⟩
  · refine ⟨⟨c, tl ++ sp1 ++ ds ++ sp2 ++ u', ?_, hword,
      by rw [hc]; decide, by rw [hc]; decide⟩⟩
    rw [hg0, hpc]
    simp
  · refine ⟨⟨c, tl ++ sp1 ++ ds ++ sp2, ?_, hword,
      by rw [hc]; decide, by rw [hc]; decide⟩⟩
    rw [hg0, hpc]
    simp

theorem matchB3At_span {p : Option Char} {u g0 : List Char} {gs : Groups}
    {r : List Char} (h : matchB3At p u = some (g0, gs, r)) : SpanOK g0 := by
  unfold matchB3At at h
  cases hb : b3Alt u with
  | none => rw [hb] at h; exact absurd h (by simp)
  | some mr =>
    obtain ⟨m, r'⟩ := mr
    rw [hb] at h
    simp only [Option.some.injEq, Prod.mk.injEq] at h
    obtain ⟨hm, _, _⟩ := h
    rw [← hm]
    clear hm
    unfold b3Alt at hb
    cases h1 : ciSplit (str "excellent communication") u with
    | some mr =>
      rw [h1] at hb; obtain ⟨m1, r1⟩ := mr; simp at hb
      obtain ⟨hm1, _⟩ := hb
      obtain ⟨c, tl, hmc, hc0⟩ := ciSplit_head_lc
        (show ciSplit ('e' :: str "xcellent communication") u = some (m1, r1) from h1)
      rw [← hm1]
      exact ⟨⟨c, tl, hmc, isWordChar_of_lc (by rw [hc0]) (by decide),
        by rw [hc0]; decide, by rw [hc0]; decide⟩⟩
    | none =>
      rw [h1] at hb
      cases h2 : ciSplit (str "team player") u with
      | some mr =>
        rw [h2] at hb; obtain ⟨m1, r1⟩ := mr; simp at hb
        obtain ⟨hm1, _⟩ := hb
        obtain ⟨c, tl, hmc, hc0⟩ := ciSplit_head_lc
          (show ciSplit ('t' :: str "eam player") u = some (m1, r1) from h2)
        rw [← hm1]
        exact ⟨⟨c, tl, hmc, isWordChar_of_lc (by rw [hc0]) (by decide),
          by rw [hc0]; decide, by rw [hc0]; decide⟩⟩
      | none =>
        rw [h2] at hb
        cases h3 : ciSplitDash (str "self") (str "starter") u with
        | some mr =>
          rw [h3] at hb; obtain ⟨m1, r1⟩ := mr; simp at hb
          obtain ⟨hm1, _⟩ := hb
          obtain ⟨c, tl, hmc, hc0⟩ := ciSplitDash_head_lc
            (show ciSplitDash ('s' :: str "elf") (str "starter") u = some (m1, r1) from h3)
          rw [← hm1]
          exact ⟨⟨c, tl, hmc, isWordChar_of_lc (by rw [hc0]) (by decide),
            by rw [hc0]; decide, by rw [hc0]; decide⟩⟩
        | none =>
          rw [h3] at hb
          cases h4 : ciSplit (str "strong work ethic") u with
          | some mr =>
            rw [h4] at hb; obtain ⟨m1, r1⟩ := mr; simp at hb
            obtain ⟨hm1, _⟩ := hb
            obtain ⟨c, tl, hmc, hc0⟩ := ciSplit_head_lc
              (show ciSplit ('s' :: str "trong work ethic") u = some (m1, r1) from h4)
            rw [← hm1]
            exact ⟨⟨c, tl, hmc, isWordChar_of_lc (by rw [hc0]) (by decide),
              by rw [hc0]; decide, by rw [hc0]; decide⟩⟩
          | none =>
            rw [h4] at hb
            obtain ⟨c, tl, hmc, hc0⟩ := ciSplitDash_head_lc
              (show ciSplitDash ('d' :: str "etail") (str "oriented") u = some (m, r') from hb)
            exact ⟨⟨c, tl, hmc, isWordChar_of_lc (by rw [hc0]) (by decide),
              by rw [hc0]; decide, by rw [hc0]; decide⟩⟩

theorem replOK_ascend : ReplOK (str "ascend") := by
  refine ⟨by decide, by decide, ?_, ?_, by decide, ?_, ?_⟩
  · intro c rtl h
    rw [show str "ascend" = 'a' :: str "scend" from rfl] at h
    injection h with h1 _
    rw [← h1]
    exact ⟨by decide, by decide⟩
  · intro j h1 h2
    rcases (by omega : j = 1 ∨ j = 2 ∨ j = 3 ∨ j = 4) with rfl | rfl | rfl | rfl <;>
      decide
  · apply replBlock_of_check
    decide
  · intro c h
    rw [show (str "ascend").getLast? = some 'd' from rfl] at h
    injection h with h1
    rw [← h1]
    decide

theorem replOK_b3phrase :
    ReplOK (str "communicates clearly with mentors and closes the loop on tasks") := by
  refine ⟨by decide, by decide, ?_, ?_, by decide, ?_, ?_⟩
  · intro c rtl h
    rw [show str "communicates clearly with mentors and closes the loop on tasks" =
      'c' :: str "ommunicates clearly with mentors and closes the loop on tasks"
      from rfl] at h
    injection h with h1 _
    rw [← h1]
    exact ⟨by decide, by decide⟩
  · intro j h1 h2
    rcases (by omega : j = 1 ∨ j = 2 ∨ j = 3 ∨ j = 4) with rfl | rfl | rfl | rfl <;>
      decide
  · apply replBlock_of_check
    decide
  · intro c h
    rw [show (str "communicates clearly with mentors and closes the loop on tasks").getLast? =
      some 's' from rfl] at h
    injection h with h1
    rw [← h1]
    decide

theorem matchA2At_tail {p : Option Char} {s g0 : List Char} {gs : Groups}
    {r : List Char} (h : matchA2At p s = some (g0, gs, r)) :
    ∃ pref rest, a2Tail pref rest = some (g0, gs, r) := by
  unfold matchA2At at h
  cases h0 : ciSplit (str "lift") s with
  | none => rw [h0] at h; exact absurd h (by simp)
  | some mr0 =>
    obtain ⟨m0, r0⟩ := mr0
    rw [h0] at h; dsimp only at h
    cases h1 : ciSplit (str "ing") r0 with
    | some mri =>
      obtain ⟨mi, ri⟩ := mri
      rw [h1] at h; dsimp only at h
      cases h2 : a2Tail (m0 ++ mi) ri with
      | some res =>
        rw [h2] at h; dsimp only at h
        exact ⟨m0 ++ mi, ri, h2.trans h⟩
      | none =>
        rw [h2] at h; dsimp only at h
        exact ⟨m0, r0, h⟩
    | none =>
      rw [h1] at h; dsimp only at h
      exact ⟨m0, r0, h⟩

theorem replA2_decomp (g0 : List Char) (gs : Groups) :
    replA2 g0 gs = str "move materials up to " ++ (groupVal gs 0 ++ (str " " ++
      (groupVal gs 1 ++ str " using safe methods"))) := by
  unfold replA2
  simp [List.append_assoc]

theorem replOK_A2 {g0 : List Char} {gs : Groups}
    (hnoC0 : ∀ c ∈ groupVal gs 0, lc c ≠ 'c')
    (hnoC1 : ∀ c ∈ groupVal gs 1, lc c ≠ 'c') :
    ReplOK (replA2 g0 gs) := by
  have hd : replA2 g0 gs = 'm' :: (str "ove materials up to " ++ (groupVal gs 0 ++
      (str " " ++ (groupVal gs 1 ++ str " using safe methods")))) := by
    rw [replA2_decomp]
    rfl
  refine ⟨?_, ?_, ?_, ?_, ?_, ?_, ?_⟩
  · rw [replA2_decomp, List.length_append]
    have h21 : (str "move materials up to ").length = 21 := rfl
    omega
  · rw [hd]
    rfl
  · intro c rtl h
    rw [hd] at h
    injection h with h1 _
    rw [← h1]
    exact ⟨by decide, by decide⟩
  · intro j h1 h2 hci
    rcases (by omega : j = 1 ∨ j = 2 ∨ j = 3 ∨ j = 4) with rfl | rfl | rfl | rfl <;>
    · rw [replA2_decomp, ciStarts_append_left (by decide)] at hci
      exact absurd hci (by decide)
  · intro hci
    rw [replA2_decomp, ciStarts_append_left (by decide)] at hci
    exact absurd hci (by decide)
  · apply replBlock_of_noC
    intro c hc
    rw [replA2_decomp] at hc
    simp only [List.mem_append] at hc
    rcases hc with hc | hc | hc | hc | hc
    · exact (by decide : ∀ x ∈ str "move materials up to ", lc x ≠ 'c') c hc
    · exact hnoC0 c hc
    · exact (by decide : ∀ x ∈ str " ", lc x ≠ 'c') c hc
    · exact hnoC1 c hc
    · exact (by decide : ∀ x ∈ str " using safe methods", lc x ≠ 'c') c hc
  · intro c h
    unfold replA2 at h
    rw [List.getLast?_append,
      show (str " using safe methods").getLast? = some 's' from rfl] at h
    simp at h
    rw [← h]
    decide

theorem hOKA1fact : ∀ (p : Option Char) (u g0 : List Char) (gs : Groups)
    (r : List Char), matchA1At p u = some (g0, gs, r) →
    ReplOK (replA1 g0 gs) ∧ SpanOK g0 :=
  fun _ _ _ _ _ h => ⟨replOK_ascend, matchA1At_span h⟩

theorem hOKA2fact : ∀ (p : Option Char) (u g0 : List Char) (gs : Groups)
    (r : List Char), matchA2At p u = some (g0, gs, r) →
    ReplOK (replA2 g0 gs) ∧ SpanOK g0 := by
  intro p u g0 gs r h
  obtain ⟨pref, rest, ht⟩ := matchA2At_tail h
  obtain ⟨hc0, hc1⟩ := a2Tail_noC ht
  exact ⟨replOK_A2 hc0 hc1, matchA2At_span h⟩

theorem hOKB3fact : ∀ (p : Option Char) (u g0 : List Char) (gs : Groups)
    (r : List Char), matchB3At p u = some (g0, gs, r) →
    ReplOK (replB3 g0 gs) ∧ SpanOK g0 :=
  fun _ _ _ _ _ h => ⟨replOK_b3phrase, matchB3At_span h⟩

theorem noA1C_lintClean (t : List Char) : NoA1C none (lintClean t) := by
  have h1 : NoA1C none (reSub matchA1At replA1 t) :=
    noA1C_chunks_A1 hOKA1fact
      (chunks_subAux replA1 matchA1At_sound matchA1At_pos t.length none t
        (le_refl _))
      none (Or.inl rfl)
  have h2 : NoA1C none (reSub matchA2At replA2 (reSub matchA1At replA1 t)) :=
    noA1C_chunks matchA2At_sound hOKA2fact
      (chunks_subAux replA2 matchA2At_sound matchA2At_pos
        (reSub matchA1At replA1 t).length none (reSub matchA1At replA1 t)
        (le_refl _))
      none (Or.inl rfl) h1
  exact noA1C_chunks matchB3At_sound hOKB3fact
    (chunks_subAux replB3 matchB3At_sound matchB3At_pos
      (reSub matchA2At replA2 (reSub matchA1At replA1 t)).length none
      (reSub matchA2At replA2 (reSub matchA1At replA1 t)) (le_refl _))
    none (Or.inl rfl) h2

/-- Claim C9: for every input text, re-running the linter restricted to rule
R-A1 on the clean copy produced by a full lint pass finds no further
whole-word `climb`/`climbing` matches: the R-A1 scan of the clean copy is
empty, and hence the R-A1 flag list of the clean copy is empty. -/
theorem claim9_idempotent (t : List Char) :
    finditer matchA1At ((lint t).2) = [] ∧ ruleFlags ruleA1 ((lint t).2) = [] := by
  have hfin : finditer matchA1At ((lint t).2) = [] := by
    unfold lint
    by_cases hg : pyStrip t = []
    · rw [if_pos hg]
      rfl
    · rw [if_neg hg]
      exact finditer_nil_of_noA1C (noA1C_lintClean t)
  refine ⟨hfin, ?_⟩
  unfold ruleFlags
  rw [show ruleA1.pat = matchA1At from rfl, hfin]
  rfl

end InAA


